import Mathlib

set_option linter.unusedVariables false

/-!
# Verification of the nexusalloc slab allocator core

Shallow embedding of the nexusalloc allocator (size-class table, occupancy
bitmap, slab, lock-free chunk stack, thread arena) together with proofs of the
behavioural properties claimed for it.  Pointers are modelled as natural
numbers with `0` playing the role of the null pointer, machine words are
natural numbers reduced `% 2 ^ 64` where overflow matters, and the
first-word-of-a-block memory that the embedded free lists live in is modelled
as a function `Nat → Nat` from addresses to stored words.
-/

namespace NexusAlloc

/-! ### Machine-word primitives -/

/-- Bitwise NOT on a 64-bit word (C++ `~x` on `size_t`/`uintptr_t`): all 64
bits are flipped, i.e. XOR with the all-ones word. -/
def complement64 (x : Nat) : Nat := (2 ^ 64 - 1) ^^^ x

/-- `align_up(value, alignment) = (value + alignment - 1) & ~(alignment - 1)`
(from `internal/alignment.hpp`); the sum is `size_t` arithmetic, hence the
`% 2 ^ 64`. -/
def align_up (value alignment : Nat) : Nat :=
  ((value + alignment - 1) % 2 ^ 64) &&& complement64 (alignment - 1)

/-- Fuel-bounded binary logarithm.  With fuel 64 it computes `⌊log₂ x⌋` of any
64-bit value; it is structurally recursive on the fuel so that it also
evaluates inside the kernel. -/
def log2fuel : Nat → Nat → Nat
  | 0, _ => 0
  | fuel + 1, x => if 2 ≤ x then log2fuel fuel (x / 2) + 1 else 0

/-- Model of the `__builtin_clzll` intrinsic applied to a nonzero 64-bit
value: the count of leading zero bits, `63 - ⌊log₂ x⌋`. -/
def clz64 (x : Nat) : Nat := 63 - log2fuel 64 x

/-- 64-bit increment of a `size_t` counter. -/
def inc64 (c : Nat) : Nat := (c + 1) % 2 ^ 64

/-- 64-bit decrement of a `size_t` counter (wraps around at zero exactly like
`--counter` does on an unsigned machine word). -/
def dec64 (c : Nat) : Nat := (c + (2 ^ 64 - 1)) % 2 ^ 64

theorem log2fuel_eq_log2 : ∀ (fuel x : Nat), x < 2 ^ fuel → log2fuel fuel x = Nat.log2 x := by
  intro fuel
  induction fuel with
  | zero =>
    intro x hx
    interval_cases x
    simp [log2fuel, Nat.log2]
  | succ f ih =>
    intro x hx
    rw [log2fuel, Nat.log2]
    by_cases h2 : 2 ≤ x
    · rw [if_pos h2, if_pos h2, ih]
      have : x / 2 < 2 ^ f := by
        apply Nat.div_lt_of_lt_mul
        rw [Nat.pow_succ] at hx
        omega
      exact this
    · rw [if_neg h2, if_neg h2]

theorem inc64_eq (c : Nat) (h : c + 1 < 2 ^ 64) : inc64 c = c + 1 := by
  rw [inc64, Nat.mod_eq_of_lt h]

theorem dec64_eq (c : Nat) (h0 : 0 < c) (h : c < 2 ^ 64) : dec64 c = c - 1 := by
  rw [dec64]
  have : c + (2 ^ 64 - 1) = (c - 1) + 2 ^ 64 := by omega
  rw [this, Nat.add_mod_right, Nat.mod_eq_of_lt (by omega)]

/-- Clearing the low `k` bits of a 64-bit value with the complemented mask
rounds it down to a multiple of `2 ^ k`. -/
theorem land_complement64 (k x : Nat) (hk : k ≤ 64) (hx : x < 2 ^ 64) :
    x &&& complement64 (2 ^ k - 1) = 2 ^ k * (x / 2 ^ k) := by
  apply Nat.eq_of_testBit_eq
  intro i
  rw [Nat.testBit_and, complement64, Nat.testBit_xor, Nat.testBit_two_pow_sub_one,
    Nat.testBit_two_pow_sub_one, Nat.testBit_mul_pow_two]
  rcases Nat.lt_or_ge i k with hik | hik
  · -- below the mask: both sides are false
    have h64 : i < 64 := lt_of_lt_of_le hik hk
    simp [hik, h64, Nat.not_le_of_lt hik]
  · rcases Nat.lt_or_ge i 64 with h64 | h64
    · -- in the window [k, 64): both sides are bit `i` of `x`
      have : x / 2 ^ k = x >>> k := (Nat.shiftRight_eq_div_pow x k).symm
      rw [this, Nat.testBit_shiftRight]
      have hki : k + (i - k) = i := by omega
      rw [hki]
      simp [hik, Nat.not_lt_of_le hik, h64]
    · -- at or above bit 64: `x < 2 ^ 64` makes both sides false
      have hxb : x.testBit i = false := Nat.testBit_lt_two_pow (lt_of_lt_of_le hx (Nat.pow_le_pow_right (by omega) h64))
      have hdb : (x / 2 ^ k).testBit (i - k) = false := by
        have : x / 2 ^ k = x >>> k := (Nat.shiftRight_eq_div_pow x k).symm
        rw [this, Nat.testBit_shiftRight]
        have hki : k + (i - k) = i := by omega
        rw [hki]
        exact hxb
      simp [hxb, hdb]

/-! ### Size classes (`internal/size_class.hpp`)

`SizeClass::index` maps a byte count to one of 24 classes (or to the sentinel
24 = `kNumClasses` for large requests) and `SizeClass::block_size` is the
lookup in the precomputed class-size table. -/

namespace SizeClass

def kNumSmallClasses : Nat := 16
def kNumLargeClasses : Nat := 8
def kNumClasses : Nat := kNumSmallClasses + kNumLargeClasses
def kMinBlockSize : Nat := 16
def kMaxSmallSize : Nat := 256
def kMaxSlabSize : Nat := 65536

/-- `SizeClass::index`. -/
def index (size : Nat) : Nat :=
  if size = 0 then 0
  else
    let size := if size < kMinBlockSize then kMinBlockSize else size
    if size ≤ kMaxSmallSize then
      (align_up size kMinBlockSize) / kMinBlockSize - 1
    else if size ≤ kMaxSlabSize then
      let log2_ceil := 64 - clz64 (size - 1)
      kNumSmallClasses + log2_ceil - 9
    else
      kNumClasses

/-- The precomputed table `kSizes`: 16, 32, …, 256 then 512, 1024, …, 65536. -/
def kSizes (i : Nat) : Nat :=
  if i < kNumSmallClasses then (i + 1) * 16 else 512 * 2 ^ (i - kNumSmallClasses)

/-- `SizeClass::block_size`. -/
def block_size (idx : Nat) : Nat :=
  if idx ≥ kNumClasses then 0 else kSizes idx

/-- `SizeClass::is_large`. -/
def is_large (size : Nat) : Bool := size > kMaxSlabSize

/-- On the medium range the index formula collapses to `8 + ⌊log₂ (n-1)⌋`. -/
theorem index_medium (n : Nat) (h1 : 257 ≤ n) (h2 : n ≤ 65536) :
    index n = 8 + Nat.log2 (n - 1) := by
  have hn0 : n ≠ 0 := by omega
  have hlog : log2fuel 64 (n - 1) = Nat.log2 (n - 1) :=
    log2fuel_eq_log2 64 (n - 1) (by omega)
  have hge : 8 ≤ Nat.log2 (n - 1) := by
    rw [Nat.le_log2 (by omega)]
    omega
  have hlt : Nat.log2 (n - 1) < 16 := by
    rw [Nat.log2_lt (by omega)]
    omega
  have hn16 : (if n < kMinBlockSize then kMinBlockSize else n) = n := by
    rw [if_neg (by simp only [kMinBlockSize]; omega)]
  rw [index, if_neg hn0]
  simp only [hn16, kMaxSmallSize, kMaxSlabSize, kNumSmallClasses]
  rw [if_neg (by omega), if_pos h2, clz64, hlog]
  omega

theorem block_size_medium (j : Nat) (h1 : 16 ≤ j) (h2 : j < 24) :
    block_size j = 2 ^ (j - 7) := by
  rw [block_size, kSizes]
  simp only [kNumClasses, kNumSmallClasses, kNumLargeClasses]
  rw [if_neg (by omega), if_neg (by omega)]
  have h9 : (512 : Nat) = 2 ^ 9 := by norm_num
  rw [h9, ← Nat.pow_add]
  congr 1
  omega

set_option maxRecDepth 100000 in
/-- The small range (n ≤ 256) of the round-trip law, settled by evaluation. -/
theorem round_trip_small :
    ∀ n, n < 257 → 1 ≤ n →
      n ≤ block_size (index n) ∧ index n < kNumClasses ∧
      ∀ j, j < kNumClasses → n ≤ block_size j → block_size (index n) ≤ block_size j := by
  decide

end SizeClass

/-- **C1.** For every requested size `n` with `1 ≤ n ≤ 65536`, the size-class
table satisfies `block_size (index n) ≥ n`, the index is one of the 24
classes, and `block_size (index n)` is the smallest of the 24 class sizes that
is `≥ n`. -/
theorem C1_size_class_round_trip (n : Nat) (h1 : 1 ≤ n) (h2 : n ≤ 65536) :
    n ≤ SizeClass.block_size (SizeClass.index n) ∧
    SizeClass.index n < SizeClass.kNumClasses ∧
    ∀ j, j < SizeClass.kNumClasses → n ≤ SizeClass.block_size j →
      SizeClass.block_size (SizeClass.index n) ≤ SizeClass.block_size j := by
  rcases Nat.lt_or_ge n 257 with hsmall | hbig
  · exact SizeClass.round_trip_small n hsmall h1
  · -- medium range 257..65536
    have hidx := SizeClass.index_medium n hbig h2
    have hge : 8 ≤ Nat.log2 (n - 1) := by
      rw [Nat.le_log2 (by omega)]; omega
    have hlt : Nat.log2 (n - 1) < 16 := by
      rw [Nat.log2_lt (by omega)]; omega
    have hbs : SizeClass.block_size (SizeClass.index n) = 2 ^ (Nat.log2 (n - 1) + 1) := by
      rw [hidx, SizeClass.block_size_medium _ (by omega) (by omega)]
      congr 1
      omega
    have hle : n ≤ 2 ^ (Nat.log2 (n - 1) + 1) := by
      have := @Nat.lt_log2_self (n - 1)
      omega
    refine ⟨by rw [hbs]; exact hle, by rw [hidx]; simp only [SizeClass.kNumClasses,
      SizeClass.kNumSmallClasses, SizeClass.kNumLargeClasses]; omega, ?_⟩
    intro j hj hnj
    rcases Nat.lt_or_ge j 16 with hj16 | hj16
    · -- small classes are ≤ 256 < n: impossible
      exfalso
      have : SizeClass.block_size j = (j + 1) * 16 := by
        rw [SizeClass.block_size, SizeClass.kSizes,
          if_neg (by simp only [SizeClass.kNumClasses, SizeClass.kNumSmallClasses,
            SizeClass.kNumLargeClasses]; omega),
          if_pos (by simp only [SizeClass.kNumSmallClasses]; omega)]
      rw [this] at hnj
      omega
    · have hbsj : SizeClass.block_size j = 2 ^ (j - 7) :=
        SizeClass.block_size_medium j hj16 (by
          simp only [SizeClass.kNumClasses, SizeClass.kNumSmallClasses,
            SizeClass.kNumLargeClasses] at hj; omega)
      rw [hbs, hbsj]
      apply Nat.pow_le_pow_right (by omega)
      -- n ≤ 2 ^ (j - 7) forces log2 (n-1) + 1 ≤ j - 7
      have : Nat.log2 (n - 1) < j - 7 := by
        rw [Nat.log2_lt (by omega)]
        rw [hbsj] at hnj
        omega
      omega

/-- Witness for C1 at the concrete input 300: class 17 (512 bytes). -/
theorem C1_size_class_round_trip_witness :
    300 ≤ SizeClass.block_size (SizeClass.index 300) ∧
    SizeClass.index 300 < SizeClass.kNumClasses ∧
    ∀ j, j < SizeClass.kNumClasses → 300 ≤ SizeClass.block_size j →
      SizeClass.block_size (SizeClass.index 300) ≤ SizeClass.block_size j :=
  C1_size_class_round_trip 300 (by norm_num) (by norm_num)

/-- **C6.** Boundary behaviour of the size-class mapping: `index 0 = 0`; every
request below 16 bytes is rounded up to the 16-byte class 0; a request of
exactly 65536 bytes maps to class 23 (slab path, not large); 65537 bytes is
large; and `is_large n` holds exactly when `n > 65536`. -/
theorem C6_size_class_boundaries :
    SizeClass.index 0 = 0 ∧
    (∀ n, n < 16 → SizeClass.index n = 0 ∧ SizeClass.block_size (SizeClass.index n) = 16) ∧
    SizeClass.index 65536 = 23 ∧
    SizeClass.is_large 65536 = false ∧
    SizeClass.is_large 65537 = true ∧
    ∀ n, SizeClass.is_large n = true ↔ n > 65536 := by
  refine ⟨by decide, by decide, ?_, by decide, by decide, ?_⟩
  · have h := SizeClass.index_medium 65536 (by norm_num) le_rfl
    have hlog : Nat.log2 65535 = 15 := by
      apply Nat.le_antisymm
      · have := (Nat.log2_lt (n := 65535) (by norm_num)).2 (show 65535 < 2 ^ 16 by norm_num)
        omega
      · exact (Nat.le_log2 (by norm_num)).2 (by norm_num)
    norm_num at h
    rw [h, hlog]
  · intro n
    simp [SizeClass.is_large, SizeClass.kMaxSlabSize]

/-- Witness for C6's bounded quantifier at the concrete input 7. -/
theorem C6_size_class_boundaries_witness :
    SizeClass.index 7 = 0 ∧ SizeClass.block_size (SizeClass.index 7) = 16 :=
  C6_size_class_boundaries.2.1 7 (by norm_num)

/-! ### Occupancy bitmap (`internal/bitmap.hpp`)

A fixed-capacity bit array stored as 64-bit words.  `std::popcount` of one
word is modelled as the number of set bits among bits 0..63. -/

def kBitsPerWord : Nat := 64

def numWords (numBits : Nat) : Nat := (numBits + kBitsPerWord - 1) / kBitsPerWord

/-- Population count of a 64-bit word (`std::popcount`). -/
def popcount64 (w : Nat) : Nat := ((Finset.range 64).filter (fun j => w.testBit j)).card

structure Bitmap where
  words : List Nat
deriving DecidableEq

namespace Bitmap

/-- Zero-initialised bitmap (`words_{}` default member initialisation). -/
def init (numBits : Nat) : Bitmap := ⟨List.replicate (numWords numBits) 0⟩

/-- `Bitmap::set`. -/
def set (b : Bitmap) (i : Nat) : Bitmap :=
  ⟨b.words.set (i / kBitsPerWord)
    ((b.words.getD (i / kBitsPerWord) 0) ||| (1 <<< (i % kBitsPerWord)))⟩

/-- `Bitmap::clear` (`word &= ~(1 << bit)`). -/
def clear (b : Bitmap) (i : Nat) : Bitmap :=
  ⟨b.words.set (i / kBitsPerWord)
    ((b.words.getD (i / kBitsPerWord) 0) &&& complement64 (1 <<< (i % kBitsPerWord)))⟩

/-- `Bitmap::test`. -/
def test (b : Bitmap) (i : Nat) : Bool :=
  (b.words.getD (i / kBitsPerWord) 0) &&& (1 <<< (i % kBitsPerWord)) != 0

/-- `Bitmap::count`: the sum of the per-word popcounts. -/
def count (b : Bitmap) : Nat := (b.words.map popcount64).sum

end Bitmap

theorem one_shift_eq_pow (r : Nat) : (1 : Nat) <<< r = 2 ^ r := by
  rw [Nat.shiftLeft_eq, one_mul]

theorem land_one_shift (w r : Nat) : w &&& (1 <<< r) = if w.testBit r then 2 ^ r else 0 := by
  rw [one_shift_eq_pow]
  by_cases hw : w.testBit r
  · rw [if_pos hw]
    apply Nat.eq_of_testBit_eq
    intro i
    rw [Nat.testBit_and, Nat.testBit_two_pow]
    by_cases hir : r = i
    · subst hir; simp [hw, Nat.testBit_two_pow]
    · simp [hir, Nat.testBit_two_pow]
  · rw [if_neg hw]
    apply Nat.eq_of_testBit_eq
    intro i
    rw [Nat.testBit_and, Nat.testBit_two_pow, Nat.zero_testBit]
    by_cases hir : r = i
    · subst hir; simp [hw]
    · simp [hir]

theorem testBit_eq_land (w r : Nat) : w.testBit r = (w &&& (1 <<< r) != 0) := by
  rw [land_one_shift]
  cases hb : w.testBit r
  · simp
  · symm
    rw [if_pos rfl, bne_iff_ne]
    exact (Nat.two_pow_pos r).ne'

theorem testBit_complement64_shift (r i : Nat) (hr : r < 64) :
    (complement64 (1 <<< r)).testBit i = (decide (i < 64) && !(decide (r = i))) := by
  have h1 : (1 : Nat) <<< r = 2 ^ r := by rw [Nat.shiftLeft_eq, one_mul]
  rw [complement64, h1, Nat.testBit_xor, Nat.testBit_two_pow_sub_one, Nat.testBit_two_pow]
  by_cases hir : r = i
  · subst hir; simp [hr]
  · simp [hir]

namespace Bitmap

theorem test_eq_testBit (b : Bitmap) (i : Nat) :
    b.test i = (b.words.getD (i / kBitsPerWord) 0).testBit (i % kBitsPerWord) := by
  rw [test, testBit_eq_land]

theorem getD_set_self (l : List Nat) (j v : Nat) (h : j < l.length) :
    (l.set j v).getD j 0 = v := by
  rw [List.getD_eq_getElem?_getD, List.getElem?_set_self (by simpa using h)]
  rfl

theorem getD_set_ne (l : List Nat) (j k v : Nat) (h : j ≠ k) :
    (l.set j v).getD k 0 = l.getD k 0 := by
  rw [List.getD_eq_getElem?_getD, List.getElem?_set_ne h, ← List.getD_eq_getElem?_getD]

theorem mod64_lt (i : Nat) : i % kBitsPerWord < 64 := by
  rw [kBitsPerWord]
  exact Nat.mod_lt _ (by norm_num)

/-- Distinct bit indices live at a different word or a different bit. -/
theorem bit_pos_ne {i j : Nat} (h : i ≠ j) :
    i / kBitsPerWord ≠ j / kBitsPerWord ∨
      (i / kBitsPerWord = j / kBitsPerWord ∧ i % kBitsPerWord ≠ j % kBitsPerWord) := by
  by_cases hw : i / kBitsPerWord = j / kBitsPerWord
  · refine Or.inr ⟨hw, fun hm => h ?_⟩
    have hi := Nat.div_add_mod i kBitsPerWord
    have hj := Nat.div_add_mod j kBitsPerWord
    simp only [kBitsPerWord] at hi hj hw hm
    omega
  · exact Or.inl hw

theorem test_set_self (b : Bitmap) (i : Nat) (h : i / kBitsPerWord < b.words.length) :
    (b.set i).test i = true := by
  rw [test_eq_testBit, set]
  simp only
  rw [getD_set_self _ _ _ h, Nat.testBit_or, one_shift_eq_pow, Nat.testBit_two_pow_self]
  simp

theorem test_set_ne (b : Bitmap) (i j : Nat) (h : j ≠ i) :
    (b.set i).test j = b.test j := by
  rw [test_eq_testBit, test_eq_testBit, set]
  simp only
  rcases bit_pos_ne h with hw | ⟨hw, hb⟩
  · rw [getD_set_ne _ _ _ _ (fun e => hw e.symm)]
  · rw [hw]
    by_cases hlen : i / kBitsPerWord < b.words.length
    · rw [getD_set_self _ _ _ hlen, Nat.testBit_or, one_shift_eq_pow,
        Nat.testBit_two_pow_of_ne (fun e => hb e.symm)]
      simp
    · rw [List.set_eq_of_length_le (by omega)]

theorem test_clear_self (b : Bitmap) (i : Nat) : (b.clear i).test i = false := by
  rw [test_eq_testBit, clear]
  simp only
  by_cases hlen : i / kBitsPerWord < b.words.length
  · rw [getD_set_self _ _ _ hlen, Nat.testBit_and,
      testBit_complement64_shift (i % kBitsPerWord) (i % kBitsPerWord) (mod64_lt i)]
    simp
  · rw [List.set_eq_of_length_le (by omega)]
    rw [List.getD_eq_getElem?_getD, List.getElem?_eq_none (by omega)]
    simp

theorem test_clear_ne (b : Bitmap) (i j : Nat) (h : j ≠ i) :
    (b.clear i).test j = b.test j := by
  rw [test_eq_testBit, test_eq_testBit, clear]
  simp only
  rcases bit_pos_ne h with hw | ⟨hw, hb⟩
  · rw [getD_set_ne _ _ _ _ (fun e => hw e.symm)]
  · rw [hw]
    by_cases hlen : i / kBitsPerWord < b.words.length
    · rw [getD_set_self _ _ _ hlen, Nat.testBit_and,
        testBit_complement64_shift (i % kBitsPerWord) (j % kBitsPerWord) (mod64_lt i)]
      have hjb : j % kBitsPerWord < 64 := mod64_lt j
      have hne : ¬ (i % kBitsPerWord = j % kBitsPerWord) := fun e => hb e.symm
      simp [hjb, hne]
    · rw [List.set_eq_of_length_le (by omega)]

theorem length_set_words (b : Bitmap) (i : Nat) : (b.set i).words.length = b.words.length := by
  rw [set]; simp

theorem length_clear_words (b : Bitmap) (i : Nat) :
    (b.clear i).words.length = b.words.length := by
  rw [clear]; simp

theorem test_init (numBits i : Nat) : (init numBits).test i = false := by
  rw [test_eq_testBit, init]
  simp only
  have : (List.replicate (numWords numBits) (0 : Nat)).getD (i / kBitsPerWord) 0 = 0 := by
    rw [List.getD_eq_getElem?_getD, List.getElem?_replicate]
    by_cases h : i / kBitsPerWord < numWords numBits <;> simp [h]
  rw [this]
  simp

theorem count_init (numBits : Nat) : (init numBits).count = 0 := by
  rw [count, init]
  simp only [List.map_replicate, List.sum_replicate, smul_eq_mul]
  have : popcount64 0 = 0 := by
    rw [popcount64]
    simp
  rw [this, Nat.mul_zero]

theorem length_init_words (numBits : Nat) : (init numBits).words.length = numWords numBits := by
  rw [init]; simp

theorem popcount64_or (w r : Nat) (hr : r < 64) (hw : w.testBit r = false) :
    popcount64 (w ||| 2 ^ r) = popcount64 w + 1 := by
  rw [popcount64, popcount64]
  have hset : (Finset.range 64).filter (fun j => (w ||| 2 ^ r).testBit j) =
      insert r ((Finset.range 64).filter (fun j => w.testBit j)) := by
    ext x
    simp only [Finset.mem_filter, Finset.mem_insert, Finset.mem_range, Nat.testBit_or,
      Nat.testBit_two_pow, Bool.or_eq_true, decide_eq_true_eq]
    constructor
    · rintro ⟨hx, h | h⟩
      · exact Or.inr ⟨hx, h⟩
      · exact Or.inl h.symm
    · rintro (rfl | ⟨hx, h⟩)
      · exact ⟨hr, Or.inr rfl⟩
      · exact ⟨hx, Or.inl h⟩
  rw [hset, Finset.card_insert_of_not_mem (by simp [hw])]

theorem popcount64_clear (w r : Nat) (hr : r < 64) (hw : w.testBit r = true) :
    popcount64 (w &&& complement64 (1 <<< r)) + 1 = popcount64 w := by
  rw [popcount64, popcount64]
  have hset : (Finset.range 64).filter (fun j => (w &&& complement64 (1 <<< r)).testBit j) =
      ((Finset.range 64).filter (fun j => w.testBit j)).erase r := by
    ext x
    simp only [Finset.mem_filter, Finset.mem_erase, Finset.mem_range, Nat.testBit_and,
      testBit_complement64_shift r x hr, Bool.and_eq_true, decide_eq_true_eq,
      Bool.not_eq_true', decide_eq_false_iff_not]
    constructor
    · rintro ⟨hx, hbit, _, hne⟩
      exact ⟨fun e => hne e.symm, hx, hbit⟩
    · rintro ⟨hne, hx, hbit⟩
      exact ⟨hx, hbit, hx, fun e => hne e.symm⟩
  rw [hset]
  exact Finset.card_erase_add_one (by simp [hw, hr])

theorem sum_set_nat : ∀ (l : List Nat) (j v : Nat), j < l.length →
    (l.set j v).sum + l.getD j 0 = l.sum + v := by
  intro l
  induction l with
  | nil => intro j v h; simp at h
  | cons a t ih =>
    intro j v h
    cases j with
    | zero => simp [List.sum_cons]; omega
    | succ j =>
      simp only [List.set_cons_succ, List.sum_cons, List.getD_cons_succ]
      have := ih j v (by simpa using h)
      omega

/-- Setting a clear bit (inside the word array) increments `count`. -/
theorem count_set (b : Bitmap) (i : Nat) (hlen : i / kBitsPerWord < b.words.length)
    (hfree : b.test i = false) : (b.set i).count = b.count + 1 := by
  rw [count, count, set]
  simp only [List.map_set]
  have h1 : (1 : Nat) <<< (i % kBitsPerWord) = 2 ^ (i % kBitsPerWord) := by
    rw [Nat.shiftLeft_eq, one_mul]
  rw [test_eq_testBit] at hfree
  have hp : popcount64 ((b.words.getD (i / kBitsPerWord) 0) ||| (1 <<< (i % kBitsPerWord))) =
      popcount64 (b.words.getD (i / kBitsPerWord) 0) + 1 := by
    rw [h1]
    exact popcount64_or _ _ (mod64_lt i) hfree
  have hs := sum_set_nat (b.words.map popcount64) (i / kBitsPerWord)
    (popcount64 ((b.words.getD (i / kBitsPerWord) 0) ||| (1 <<< (i % kBitsPerWord))))
    (by simpa using hlen)
  have hgd : (b.words.map popcount64).getD (i / kBitsPerWord) 0 =
      popcount64 (b.words.getD (i / kBitsPerWord) 0) := by
    rw [List.getD_eq_getElem?_getD, List.getElem?_map, List.getD_eq_getElem?_getD,
      List.getElem?_eq_getElem hlen]
    rfl
  rw [hgd] at hs
  omega

/-- Clearing a set bit decrements `count`. -/
theorem count_clear (b : Bitmap) (i : Nat) (hlen : i / kBitsPerWord < b.words.length)
    (hset : b.test i = true) : (b.clear i).count + 1 = b.count := by
  rw [count, count, clear]
  simp only [List.map_set]
  rw [test_eq_testBit] at hset
  have hp := popcount64_clear (b.words.getD (i / kBitsPerWord) 0) (i % kBitsPerWord)
    (mod64_lt i) hset
  have hs := sum_set_nat (b.words.map popcount64) (i / kBitsPerWord)
    (popcount64 ((b.words.getD (i / kBitsPerWord) 0) &&&
      complement64 (1 <<< (i % kBitsPerWord))))
    (by simpa using hlen)
  have hgd : (b.words.map popcount64).getD (i / kBitsPerWord) 0 =
      popcount64 (b.words.getD (i / kBitsPerWord) 0) := by
    rw [List.getD_eq_getElem?_getD, List.getElem?_map, List.getD_eq_getElem?_getD,
      List.getElem?_eq_getElem hlen]
    rfl
  rw [hgd] at hs
  omega

end Bitmap

/-! ### Slab (`slab.hpp`)

A slab carves one 2 MiB chunk into `kChunkSize / BlockSize` blocks threaded by
an embedded free list (the first pointer-sized word of each free block holds
the next free block) and tracked by the occupancy bitmap.  Block-header
memory is a function from addresses to the word stored there. -/

/-- `PageTraits::kChunkSize` = 2 MiB. -/
def kChunkSize : Nat := 2 ^ 21

/-- `kBlocksPerSlab = kChunkSize / BlockSize`. -/
def blocksPerSlab (blockSize : Nat) : Nat := kChunkSize / blockSize

/-- Store of one pointer-sized word at an address. -/
def writeWord (m : Nat → Nat) (addr v : Nat) : Nat → Nat :=
  fun a => if a = addr then v else m a

structure SlabState where
  base : Nat
  free_head : Nat
  allocated_count : Nat
  occupancy : Bitmap
  mem : Nat → Nat

/-- The null-terminated free list threaded through block-header memory,
starting at a given head pointer. -/
def chain (m : Nat → Nat) : Nat → List Nat → Prop
  | h, [] => h = 0
  | h, p :: rest => h = p ∧ p ≠ 0 ∧ chain m (m p) rest

theorem chain_unique (m : Nat → Nat) :
    ∀ (l1 l2 : List Nat) (h : Nat), chain m h l1 → chain m h l2 → l1 = l2 := by
  intro l1
  induction l1 with
  | nil =>
    intro l2 h h1 h2
    cases l2 with
    | nil => rfl
    | cons q rest =>
      rcases h2 with ⟨rfl, hq, _⟩
      exact absurd h1 hq
  | cons p rest ih =>
    intro l2 h h1 h2
    rcases h1 with ⟨rfl, hp, hrest⟩
    cases l2 with
    | nil => exact absurd h2 hp
    | cons q rest2 =>
      rcases h2 with ⟨hq, _, hrest2⟩
      subst hq
      rw [ih rest2 _ hrest hrest2]

theorem chain_write_of_not_mem (m : Nat → Nat) (p v : Nat) :
    ∀ (l : List Nat) (h : Nat), chain m h l → (∀ q ∈ l, q ≠ p) →
      chain (writeWord m p v) h l := by
  intro l
  induction l with
  | nil => intro h hc _; exact hc
  | cons q rest ih =>
    intro h hc hmem
    obtain ⟨heq, hq, hrest⟩ := hc
    subst heq
    refine ⟨rfl, hq, ?_⟩
    have hqp : h ≠ p := hmem h (by simp)
    have hw : writeWord m p v h = m h := by rw [writeWord, if_neg hqp]
    rw [hw]
    exact ih _ hrest (fun x hx => hmem x (by simp [hx]))

namespace Slab

/-- The constructor loop of `Slab::Slab(chunk)`: each block's first word gets
the address of the next block and the last block is terminated with null. -/
def initMem (blockSize chunk : Nat) (m0 : Nat → Nat) : Nat → Nat :=
  writeWord
    ((List.range (blocksPerSlab blockSize - 1)).foldl
      (fun m i => writeWord m (chunk + i * blockSize) (chunk + (i + 1) * blockSize)) m0)
    (chunk + (blocksPerSlab blockSize - 1) * blockSize) 0

/-- `Slab::Slab(chunk)`: null chunk leaves the slab inert, otherwise the free
list is threaded in ascending address order and `free_head` is the base. -/
def init (blockSize chunk : Nat) (m0 : Nat → Nat) : SlabState :=
  if chunk = 0 then
    { base := chunk, free_head := 0, allocated_count := 0
      occupancy := Bitmap.init (blocksPerSlab blockSize), mem := m0 }
  else
    { base := chunk, free_head := chunk, allocated_count := 0
      occupancy := Bitmap.init (blocksPerSlab blockSize)
      mem := initMem blockSize chunk m0 }

/-- `Slab::block_index`. -/
def block_index (blockSize : Nat) (s : SlabState) (p : Nat) : Nat :=
  (p - s.base) / blockSize

/-- `Slab::contains`: `base ≤ ptr < base + kChunkSize`. -/
def contains (s : SlabState) (p : Nat) : Bool :=
  decide (s.base ≤ p) && decide (p < s.base + kChunkSize)

/-- `Slab::allocate`: pop the free-list head, mark its bit, bump the count.
(The prefetch of the next block is a hardware hint with no architectural
effect and is not modelled.) -/
def allocate (blockSize : Nat) (s : SlabState) : Option Nat × SlabState :=
  if s.free_head = 0 then (none, s)
  else
    let block := s.free_head
    let next := s.mem block
    (some block,
      { s with free_head := next,
               allocated_count := inc64 s.allocated_count,
               occupancy := s.occupancy.set (block_index blockSize s block) })

/-- `Slab::deallocate`: ignore null or non-contained pointers, otherwise clear
the bit, push the block onto the free list, decrement the count. -/
def deallocate (blockSize : Nat) (s : SlabState) (p : Nat) : SlabState :=
  if p = 0 || !(contains s p) then s
  else
    { s with occupancy := s.occupancy.clear (block_index blockSize s p),
             mem := writeWord s.mem p s.free_head,
             free_head := p,
             allocated_count := dec64 s.allocated_count }

/-- `Slab::empty`. -/
def empty (s : SlabState) : Bool := s.allocated_count == 0

/-- `Slab::full`. -/
def full (s : SlabState) : Bool := s.free_head == 0

/-- `Slab::free_blocks`. -/
def free_blocks (blockSize : Nat) (s : SlabState) : Nat :=
  blocksPerSlab blockSize - s.allocated_count

end Slab

/-- **C3.** `Slab::allocate` returns null iff `free_head` is null; otherwise
it returns the old `free_head`, loads the new head from the block's first
word, sets the bitmap bit at `(ptr - base) / block_size` and increments
`allocated_count` by one (no counter overflow). -/
theorem C3_slab_allocate (blockSize : Nat) (s : SlabState)
    (hcnt : s.allocated_count + 1 < 2 ^ 64) :
    ((Slab.allocate blockSize s).1 = none ↔ s.free_head = 0) ∧
    (s.free_head ≠ 0 →
      (Slab.allocate blockSize s).1 = some s.free_head ∧
      ((Slab.allocate blockSize s).2).free_head = s.mem s.free_head ∧
      ((Slab.allocate blockSize s).2).occupancy =
        s.occupancy.set ((s.free_head - s.base) / blockSize) ∧
      ((Slab.allocate blockSize s).2).allocated_count = s.allocated_count + 1 ∧
      ((Slab.allocate blockSize s).2).base = s.base ∧
      ((Slab.allocate blockSize s).2).mem = s.mem) := by
  constructor
  · by_cases h : s.free_head = 0 <;> simp [Slab.allocate, h]
  · intro h
    simp [Slab.allocate, h, Slab.block_index, inc64_eq _ hcnt]

/-- Witness for C3 on a one-block concrete slab state. -/
theorem C3_slab_allocate_witness :
    let s : SlabState :=
      { base := 32, free_head := 32, allocated_count := 0
        occupancy := Bitmap.init (blocksPerSlab 16), mem := fun _ => 0 }
    ((Slab.allocate 16 s).1 = none ↔ s.free_head = 0) ∧
    (s.free_head ≠ 0 →
      (Slab.allocate 16 s).1 = some s.free_head ∧
      ((Slab.allocate 16 s).2).free_head = s.mem s.free_head ∧
      ((Slab.allocate 16 s).2).occupancy =
        s.occupancy.set ((s.free_head - s.base) / 16) ∧
      ((Slab.allocate 16 s).2).allocated_count = s.allocated_count + 1 ∧
      ((Slab.allocate 16 s).2).base = s.base ∧
      ((Slab.allocate 16 s).2).mem = s.mem) :=
  C3_slab_allocate 16 _ (by norm_num)

/-- **C10.** `Slab::deallocate` verifies containment before mutating: a null
pointer or one outside `[base, base + chunk_size)` leaves the slab state
unchanged, and the state can change only when `contains` holds. -/
theorem C10_slab_deallocate_guard (blockSize : Nat) (s : SlabState) (p : Nat) :
    (p = 0 ∨ Slab.contains s p = false → Slab.deallocate blockSize s p = s) ∧
    (Slab.deallocate blockSize s p ≠ s → p ≠ 0 ∧ Slab.contains s p = true) := by
  constructor
  · rintro (rfl | h)
    · simp [Slab.deallocate]
    · simp [Slab.deallocate, h]
  · intro hne
    by_cases hp : p = 0
    · subst hp
      simp [Slab.deallocate] at hne
    · refine ⟨hp, ?_⟩
      by_cases hc : Slab.contains s p
      · exact hc
      · rw [Bool.not_eq_true] at hc
        exact absurd (by simp [Slab.deallocate, hc]) hne

/-- Witness for C10: deallocating the null pointer on a concrete slab. -/
theorem C10_slab_deallocate_guard_witness :
    let s : SlabState :=
      { base := 32, free_head := 32, allocated_count := 0
        occupancy := Bitmap.init (blocksPerSlab 16), mem := fun _ => 0 }
    Slab.deallocate 16 s 0 = s :=
  (C10_slab_deallocate_guard 16 _ 0).1 (Or.inl rfl)

/-! ### Slab representation invariant

`SRep bs s A fl` relates a slab state to the set `A` of outstanding
(allocated, not yet freed) blocks and the ghost list `fl` of free blocks in
free-list order. -/

def isBlock (blockSize base p : Nat) : Prop :=
  ∃ i, i < blocksPerSlab blockSize ∧ p = base + i * blockSize

theorem block_arith (blockSize i : Nat) (hi : i < blocksPerSlab blockSize) :
    i * blockSize + blockSize ≤ kChunkSize := by
  have h2 : (i + 1) * blockSize ≤ blocksPerSlab blockSize * blockSize :=
    Nat.mul_le_mul_right _ hi
  have h3 : blocksPerSlab blockSize * blockSize ≤ kChunkSize := Nat.div_mul_le_self _ _
  calc i * blockSize + blockSize = (i + 1) * blockSize := by ring
  _ ≤ _ := le_trans h2 h3

theorem blocksPerSlab_le (blockSize : Nat) :
    blocksPerSlab blockSize ≤ kChunkSize := by
  rw [blocksPerSlab]
  exact Nat.div_le_self _ _

theorem block_index_lt_words (blockSize i : Nat) (hi : i < blocksPerSlab blockSize) :
    i / kBitsPerWord < numWords (blocksPerSlab blockSize) := by
  simp only [kBitsPerWord, numWords]
  omega

theorem block_inj (blockSize base i j : Nat) (hbs : 0 < blockSize)
    (h : base + i * blockSize = base + j * blockSize) : i = j := by
  have h2 := Nat.add_left_cancel h
  exact Nat.eq_of_mul_eq_mul_right hbs h2

theorem block_index_eq (blockSize : Nat) (s : SlabState) (i : Nat) (hbs : 0 < blockSize) :
    Slab.block_index blockSize s (s.base + i * blockSize) = i := by
  rw [Slab.block_index, Nat.add_sub_cancel_left]
  exact Nat.mul_div_cancel i hbs

theorem contains_block (blockSize : Nat) (s : SlabState) (i : Nat) (hbs : 0 < blockSize)
    (hi : i < blocksPerSlab blockSize) : Slab.contains s (s.base + i * blockSize) = true := by
  have h := block_arith blockSize i hi
  rw [Slab.contains]
  simp only [Bool.and_eq_true, decide_eq_true_eq]
  omega

structure SRep (blockSize : Nat) (s : SlabState) (A : Finset Nat) (fl : List Nat) : Prop where
  base_ne : s.base ≠ 0
  words_len : s.occupancy.words.length = numWords (blocksPerSlab blockSize)
  chain_ok : chain s.mem s.free_head fl
  nodup : fl.Nodup
  fl_blocks : ∀ p ∈ fl, isBlock blockSize s.base p
  A_blocks : ∀ p ∈ A, isBlock blockSize s.base p
  fl_out : ∀ p ∈ fl, p ∉ A
  cover : ∀ i, i < blocksPerSlab blockSize →
    (s.base + i * blockSize ∈ fl ∨ s.base + i * blockSize ∈ A)
  bits : ∀ i, i < blocksPerSlab blockSize →
    (s.occupancy.test i = true ↔ s.base + i * blockSize ∈ A)
  cnt : s.allocated_count = A.card
  pcount : s.occupancy.count = A.card
  len_eq : fl.length + A.card = blocksPerSlab blockSize

/-- Ghost free list produced by the slab constructor: all blocks in ascending
address order. -/
def initFreeList (blockSize chunk : Nat) : List Nat :=
  (List.range (blocksPerSlab blockSize)).map (fun i => chunk + i * blockSize)

theorem foldl_writeWord_range (bs chunk : Nat) (hbs : 0 < bs) (m0 : Nat → Nat) :
    ∀ (n i : Nat), i < n →
      ((List.range n).foldl
        (fun m j => writeWord m (chunk + j * bs) (chunk + (j + 1) * bs)) m0)
        (chunk + i * bs) = chunk + (i + 1) * bs := by
  intro n
  induction n with
  | zero => intro i h; omega
  | succ n ih =>
    intro i hi
    rw [List.range_succ, List.foldl_append]
    simp only [List.foldl_cons, List.foldl_nil]
    by_cases he : i = n
    · subst he
      rw [writeWord, if_pos rfl]
    · rw [writeWord, if_neg]
      · exact ih i (by omega)
      · intro hcontra
        exact he (block_inj bs chunk i n hbs hcontra)

theorem initMem_at (bs chunk : Nat) (hbs : 0 < bs) (m0 : Nat → Nat) (i : Nat)
    (hi : i < blocksPerSlab bs) :
    Slab.initMem bs chunk m0 (chunk + i * bs) =
      if i = blocksPerSlab bs - 1 then 0 else chunk + (i + 1) * bs := by
  rw [Slab.initMem, writeWord]
  by_cases he : i = blocksPerSlab bs - 1
  · rw [if_pos (by rw [he]), if_pos he]
  · rw [if_neg (fun hc => he (block_inj bs chunk _ _ hbs hc)), if_neg he]
    exact foldl_writeWord_range bs chunk hbs m0 _ i (by omega)

theorem chain_init_aux (bs chunk : Nat) (hbs : 0 < bs) (hch : chunk ≠ 0) (m0 : Nat → Nat) :
    ∀ (j k : Nat), 0 < j → j + k = blocksPerSlab bs →
      chain (Slab.initMem bs chunk m0) (chunk + k * bs)
        ((List.range' k j).map (fun i => chunk + i * bs)) := by
  intro j
  induction j with
  | zero => intro k h0 _; omega
  | succ j ih =>
    intro k _ hsum
    rw [List.range'_succ]
    simp only [List.map_cons]
    refine ⟨rfl, by positivity, ?_⟩
    rw [initMem_at bs chunk hbs m0 k (by omega)]
    rcases Nat.eq_zero_or_pos j with hj | hj
    · subst hj
      rw [if_pos (by omega)]
      simp [chain]
    · rw [if_neg (by omega)]
      have := ih (k + 1) hj (by omega)
      rw [show chunk + (k + 1) * bs = chunk + (k + 1) * bs from rfl]
      simpa using this

theorem SRep_init (bs chunk : Nat) (m0 : Nat → Nat) (hbs : 0 < bs)
    (hbsC : bs ≤ kChunkSize) (hch : chunk ≠ 0) :
    SRep bs (Slab.init bs chunk m0) ∅ (initFreeList bs chunk) := by
  have hN : 0 < blocksPerSlab bs := Nat.div_pos hbsC hbs
  rw [Slab.init, if_neg hch]
  refine
    { base_ne := hch
      words_len := Bitmap.length_init_words _
      chain_ok := ?_
      nodup := ?_
      fl_blocks := ?_
      A_blocks := by simp
      fl_out := by simp
      cover := ?_
      bits := ?_
      cnt := by simp
      pcount := by simp [Bitmap.count_init]
      len_eq := ?_ }
  · -- the constructor threads all blocks in ascending order
    have h0 : chunk = chunk + 0 * bs := by ring
    rw [initFreeList, List.range_eq_range']
    have := chain_init_aux bs chunk hbs hch m0 (blocksPerSlab bs) 0 hN (by omega)
    simpa using this
  · rw [initFreeList]
    refine List.Nodup.map ?_ (List.nodup_range _)
    intro i j hij
    exact block_inj bs chunk i j hbs hij
  · intro p hp
    rw [initFreeList] at hp
    obtain ⟨i, hi, rfl⟩ := List.mem_map.mp hp
    exact ⟨i, List.mem_range.mp hi, rfl⟩
  · intro i hi
    left
    rw [initFreeList]
    exact List.mem_map.mpr ⟨i, List.mem_range.mpr hi, rfl⟩
  · intro i hi
    simp [Bitmap.test_init]
  · rw [initFreeList]
    simp

theorem SRep_allocate_some (bs : Nat) (s : SlabState) (A : Finset Nat) (p : Nat)
    (rest : List Nat) (hbs : 0 < bs) (hrep : SRep bs s A (p :: rest)) :
    (Slab.allocate bs s).1 = some p ∧
    SRep bs (Slab.allocate bs s).2 (insert p A) rest ∧
    (Slab.allocate bs s).2.base = s.base ∧ (Slab.allocate bs s).2.mem = s.mem := by
  obtain ⟨hhead, hp0, hchain⟩ := hrep.chain_ok
  obtain ⟨i, hi, hpi⟩ := hrep.fl_blocks p (by simp)
  have hpA : p ∉ A := hrep.fl_out p (by simp)
  have hfh : s.free_head ≠ 0 := by rw [hhead]; exact hp0
  have hAcard : A.card < blocksPerSlab bs := by
    have := hrep.len_eq
    simp only [List.length_cons] at this
    omega
  have hidx : Slab.block_index bs s s.free_head = i := by
    rw [hhead, hpi]
    exact block_index_eq bs s i hbs
  have hwlen : i / kBitsPerWord < s.occupancy.words.length := by
    rw [hrep.words_len]
    exact block_index_lt_words bs i hi
  have htfree : s.occupancy.test i = false := by
    rcases hb : s.occupancy.test i with _ | _
    · rfl
    · exact absurd ((hrep.bits i hi).mp hb) (by rw [← hpi]; exact hpA)
  have hres : Slab.allocate bs s =
      (some s.free_head,
        { s with free_head := s.mem s.free_head,
                 allocated_count := inc64 s.allocated_count,
                 occupancy := s.occupancy.set (Slab.block_index bs s s.free_head) }) := by
    rw [Slab.allocate, if_neg hfh]
  rw [hres]
  refine ⟨by rw [hhead], ?_, rfl, rfl⟩
  refine
    { base_ne := hrep.base_ne
      words_len := by rw [Bitmap.length_set_words]; exact hrep.words_len
      chain_ok := by rw [hhead]; exact hchain
      nodup := (List.nodup_cons.mp hrep.nodup).2
      fl_blocks := fun q hq => hrep.fl_blocks q (by simp [hq])
      A_blocks := ?_
      fl_out := ?_
      cover := ?_
      bits := ?_
      cnt := ?_
      pcount := ?_
      len_eq := ?_ }
  · intro q hq
    rcases Finset.mem_insert.mp hq with rfl | hq
    · exact ⟨i, hi, hpi⟩
    · exact hrep.A_blocks q hq
  · intro q hq
    have hqp : q ≠ p := by
      intro h
      exact (List.nodup_cons.mp hrep.nodup).1 (h ▸ hq)
    have hqA : q ∉ A := hrep.fl_out q (by simp [hq])
    simp [Finset.mem_insert, hqp, hqA]
  · intro j hj
    rcases hrep.cover j hj with hin | hin
    · rcases List.mem_cons.mp hin with he | he
      · right
        rw [he]
        exact Finset.mem_insert_self _ _
      · left; exact he
    · right
      exact Finset.mem_insert_of_mem hin
  · intro j hj
    rw [hidx]
    by_cases hji : j = i
    · subst hji
      rw [Bitmap.test_set_self _ _ hwlen]
      simp [← hpi]
    · rw [Bitmap.test_set_ne _ _ _ hji, hrep.bits j hj]
      have : s.base + j * bs ≠ p := by
        rw [hpi]
        intro hc
        exact hji (block_inj bs s.base j i hbs hc)
      simp [Finset.mem_insert, this]
  · have hA64 : A.card + 1 < 2 ^ 64 := by
      have h2 : blocksPerSlab bs ≤ kChunkSize := blocksPerSlab_le bs
      have h3 : kChunkSize < 2 ^ 64 := by rw [kChunkSize]; norm_num
      omega
    rw [hrep.cnt, inc64_eq A.card hA64, Finset.card_insert_of_not_mem hpA]
  · rw [hidx, Bitmap.count_set _ _ hwlen htfree, hrep.pcount,
      Finset.card_insert_of_not_mem hpA]
  · rw [Finset.card_insert_of_not_mem hpA]
    have := hrep.len_eq
    simp only [List.length_cons] at this
    omega

theorem SRep_deallocate (bs : Nat) (s : SlabState) (A : Finset Nat) (fl : List Nat) (p : Nat)
    (hbs : 0 < bs) (hrep : SRep bs s A fl) (hp : p ∈ A) :
    SRep bs (Slab.deallocate bs s p) (A.erase p) (p :: fl) ∧
    (Slab.deallocate bs s p).free_head = p ∧
    (Slab.deallocate bs s p).base = s.base := by
  obtain ⟨i, hi, hpi⟩ := hrep.A_blocks p hp
  have hp0 : p ≠ 0 := by
    rw [hpi]
    have : s.base ≠ 0 := hrep.base_ne
    omega
  have hcont : Slab.contains s p = true := by
    rw [hpi]
    exact contains_block bs s i hbs hi
  have hidx : Slab.block_index bs s p = i := by
    rw [hpi]
    exact block_index_eq bs s i hbs
  have hwlen : i / kBitsPerWord < s.occupancy.words.length := by
    rw [hrep.words_len]
    exact block_index_lt_words bs i hi
  have htset : s.occupancy.test i = true := (hrep.bits i hi).mpr (hpi ▸ hp)
  have hpfl : p ∉ fl := fun hin => hrep.fl_out p hin hp
  have hAcard : 0 < A.card := Finset.card_pos.mpr ⟨p, hp⟩
  have hres : Slab.deallocate bs s p =
      { s with occupancy := s.occupancy.clear (Slab.block_index bs s p),
               mem := writeWord s.mem p s.free_head,
               free_head := p,
               allocated_count := dec64 s.allocated_count } := by
    rw [Slab.deallocate, if_neg (by simp [hp0, hcont])]
  rw [hres]
  refine ⟨?_, rfl, rfl⟩
  refine
    { base_ne := hrep.base_ne
      words_len := by rw [Bitmap.length_clear_words]; exact hrep.words_len
      chain_ok := ?_
      nodup := List.nodup_cons.mpr ⟨hpfl, hrep.nodup⟩
      fl_blocks := ?_
      A_blocks := fun q hq => hrep.A_blocks q (Finset.mem_of_mem_erase hq)
      fl_out := ?_
      cover := ?_
      bits := ?_
      cnt := ?_
      pcount := ?_
      len_eq := ?_ }
  · refine ⟨rfl, hp0, ?_⟩
    have hmp : writeWord s.mem p s.free_head p = s.free_head := by
      rw [writeWord, if_pos rfl]
    show chain (writeWord s.mem p s.free_head) (writeWord s.mem p s.free_head p) fl
    rw [hmp]
    exact chain_write_of_not_mem s.mem p s.free_head fl s.free_head hrep.chain_ok
      (fun q hq he => hrep.fl_out q hq (he ▸ hp))
  · intro q hq
    rcases List.mem_cons.mp hq with rfl | hq
    · exact ⟨i, hi, hpi⟩
    · exact hrep.fl_blocks q hq
  · intro q hq
    rcases List.mem_cons.mp hq with rfl | hq
    · exact Finset.not_mem_erase _ _
    · intro hqe
      exact hrep.fl_out q hq (Finset.mem_of_mem_erase hqe)
  · intro j hj
    by_cases hji : j = i
    · subst hji
      left
      rw [← hpi]
      exact List.mem_cons_self _ _
    · rcases hrep.cover j hj with hin | hin
      · left; exact List.mem_cons_of_mem _ hin
      · right
        rw [Finset.mem_erase]
        refine ⟨?_, hin⟩
        rw [hpi]
        intro hc
        exact hji (block_inj bs s.base j i hbs hc)
  · intro j hj
    rw [hidx]
    by_cases hji : j = i
    · subst hji
      rw [Bitmap.test_clear_self]
      rw [← hpi]
      simp [Finset.mem_erase]
    · rw [Bitmap.test_clear_ne _ _ _ hji, hrep.bits j hj, Finset.mem_erase]
      have hne : s.base + j * bs ≠ p := by
        rw [hpi]
        intro hc
        exact hji (block_inj bs s.base j i hbs hc)
      simp [hne]
  · have hA64 : A.card < 2 ^ 64 := by
      have h1 : A.card ≤ blocksPerSlab bs := by
        have := hrep.len_eq
        omega
      have h2 : blocksPerSlab bs ≤ kChunkSize := blocksPerSlab_le bs
      have h3 : kChunkSize < 2 ^ 64 := by rw [kChunkSize]; norm_num
      omega
    rw [hrep.cnt, Finset.card_erase_of_mem hp, dec64_eq A.card hAcard hA64]
  · have hc := Bitmap.count_clear s.occupancy i hwlen htset
    have hpc := hrep.pcount
    show (s.occupancy.clear (Slab.block_index bs s p)).count = (A.erase p).card
    rw [hidx, Finset.card_erase_of_mem hp]
    omega
  · rw [Finset.card_erase_of_mem hp]
    simp only [List.length_cons]
    have := hrep.len_eq
    omega

/-! ### Sequences of slab operations -/

inductive SlabOp where
  | alloc : SlabOp
  | free : Nat → SlabOp

/-- One slab operation on the state paired with the set of outstanding
blocks. -/
def slabStep (bs : Nat) : SlabState × Finset Nat → SlabOp → SlabState × Finset Nat
  | (s, A), .alloc =>
    let r := Slab.allocate bs s
    match r.1 with
    | some p => (r.2, insert p A)
    | none => (r.2, A)
  | (s, A), .free p => (Slab.deallocate bs s p, A.erase p)

/-- A sequence of operations is valid when every `free` releases a block that
is outstanding at that point (i.e. was returned by an earlier `allocate` and
not freed since). -/
def slabOpsValid (bs : Nat) : SlabState × Finset Nat → List SlabOp → Prop
  | _, [] => True
  | (s, A), op :: rest =>
    (match op with
     | .alloc => True
     | .free p => p ∈ A) ∧ slabOpsValid bs (slabStep bs (s, A) op) rest

theorem SRep_run (bs : Nat) (hbs : 0 < bs) :
    ∀ (ops : List SlabOp) (s : SlabState) (A : Finset Nat),
      (∃ fl, SRep bs s A fl) → slabOpsValid bs (s, A) ops →
      ∃ fl, SRep bs (List.foldl (slabStep bs) (s, A) ops).1
        (List.foldl (slabStep bs) (s, A) ops).2 fl := by
  intro ops
  induction ops with
  | nil =>
    intro s A h _
    simpa using h
  | cons op rest ih =>
    intro s A h hv
    obtain ⟨fl, hrep⟩ := h
    obtain ⟨hop, hrest⟩ := hv
    rw [List.foldl_cons]
    cases op with
    | alloc =>
      by_cases hfh : s.free_head = 0
      · have hstep : slabStep bs (s, A) .alloc = (s, A) := by
          simp [slabStep, Slab.allocate, hfh]
        rw [hstep] at hrest ⊢
        exact ih s A ⟨fl, hrep⟩ hrest
      · cases fl with
        | nil => exact absurd hrep.chain_ok hfh
        | cons p tail =>
          have hres := SRep_allocate_some bs s A p tail hbs hrep
          have hstep : slabStep bs (s, A) .alloc = ((Slab.allocate bs s).2, insert p A) := by
            simp [slabStep, hres.1]
          rw [hstep] at hrest ⊢
          exact ih _ _ ⟨tail, hres.2.1⟩ hrest
    | free p =>
      have hres := SRep_deallocate bs s A fl p hbs hrep hop
      have hstep : slabStep bs (s, A) (.free p) = (Slab.deallocate bs s p, A.erase p) := rfl
      rw [hstep] at hrest ⊢
      exact ih _ _ ⟨p :: fl, hres.1⟩ hrest

/-- **C4.** For every slab constructed from a chunk and every sequence of
valid `Slab::allocate` / `Slab::deallocate` operations on it, the bitmap
popcount equals `allocated_count`, every block reachable from `free_head` has
its bitmap bit clear, and `allocated_count` stays within
`[0, blocks_per_slab]`. -/
theorem C4_slab_invariants (bs chunk : Nat) (m0 : Nat → Nat) (ops : List SlabOp)
    (hbs : 16 ≤ bs) (hbsC : bs ≤ kChunkSize) (hch : chunk ≠ 0)
    (hvalid : slabOpsValid bs (Slab.init bs chunk m0, ∅) ops) :
    (List.foldl (slabStep bs) (Slab.init bs chunk m0, ∅) ops).1.occupancy.count =
      (List.foldl (slabStep bs) (Slab.init bs chunk m0, ∅) ops).1.allocated_count ∧
    (∀ fl, chain (List.foldl (slabStep bs) (Slab.init bs chunk m0, ∅) ops).1.mem
        (List.foldl (slabStep bs) (Slab.init bs chunk m0, ∅) ops).1.free_head fl →
      ∀ p ∈ fl,
        (List.foldl (slabStep bs) (Slab.init bs chunk m0, ∅) ops).1.occupancy.test
          (Slab.block_index bs (List.foldl (slabStep bs) (Slab.init bs chunk m0, ∅) ops).1 p) =
          false) ∧
    (List.foldl (slabStep bs) (Slab.init bs chunk m0, ∅) ops).1.allocated_count ≤
      blocksPerSlab bs := by
  obtain ⟨fl, hrep⟩ := SRep_run bs (by omega) ops _ _
    ⟨initFreeList bs chunk, SRep_init bs chunk m0 (by omega) hbsC hch⟩ hvalid
  refine ⟨by rw [hrep.pcount, hrep.cnt], ?_, ?_⟩
  · intro fl' hch' p hp
    have he : fl' = fl := chain_unique _ fl' fl _ hch' hrep.chain_ok
    subst he
    obtain ⟨i, hi, hpi⟩ := hrep.fl_blocks p hp
    have hpA := hrep.fl_out p hp
    rw [hpi, block_index_eq bs _ i (by omega)]
    rcases hb : Bitmap.test _ i with _ | _
    · rfl
    · exact absurd ((hrep.bits i hi).mp hb) (by rw [← hpi]; exact hpA)
  · rw [hrep.cnt]
    have := hrep.len_eq
    omega

/-- Witness for C4: one allocation on a fresh 16-byte-class slab. -/
theorem C4_slab_invariants_witness :
    (List.foldl (slabStep 16) (Slab.init 16 (2 ^ 21) (fun _ => 0), ∅) [SlabOp.alloc]).1.occupancy.count =
      (List.foldl (slabStep 16) (Slab.init 16 (2 ^ 21) (fun _ => 0), ∅) [SlabOp.alloc]).1.allocated_count ∧
    (∀ fl, chain (List.foldl (slabStep 16) (Slab.init 16 (2 ^ 21) (fun _ => 0), ∅) [SlabOp.alloc]).1.mem
        (List.foldl (slabStep 16) (Slab.init 16 (2 ^ 21) (fun _ => 0), ∅) [SlabOp.alloc]).1.free_head fl →
      ∀ p ∈ fl,
        (List.foldl (slabStep 16) (Slab.init 16 (2 ^ 21) (fun _ => 0), ∅) [SlabOp.alloc]).1.occupancy.test
          (Slab.block_index 16 (List.foldl (slabStep 16) (Slab.init 16 (2 ^ 21) (fun _ => 0), ∅) [SlabOp.alloc]).1 p) =
          false) ∧
    (List.foldl (slabStep 16) (Slab.init 16 (2 ^ 21) (fun _ => 0), ∅) [SlabOp.alloc]).1.allocated_count ≤
      blocksPerSlab 16 :=
  C4_slab_invariants 16 (2 ^ 21) (fun _ => 0) [SlabOp.alloc] (by norm_num)
    (by rw [kChunkSize]; norm_num) (by positivity) ⟨trivial, trivial⟩

/-! ### Global chunk stack (`atomic_stack.hpp`)

The tagged-pointer CAS stack, sequentialised for single-threaded reasoning:
in the absence of interference every `compare_exchange_weak` succeeds on the
first try, incrementing the ABA tag.  The intrusive `next` links live in the
first word of each chunk (`smem`). -/

structure AtomicStack where
  headPtr : Nat
  tag : Nat
  smem : Nat → Nat

namespace AtomicStack

/-- `AtomicStack::push`: null chunks are rejected; otherwise the chunk's
first word receives the old head and the tagged head is swapped to the
chunk with an incremented tag. -/
def push (st : AtomicStack) (c : Nat) : AtomicStack :=
  if c = 0 then st
  else
    { headPtr := c, tag := inc64 st.tag, smem := writeWord st.smem c st.headPtr }

/-- `AtomicStack::pop`: a null head returns null, otherwise the head chunk is
returned and replaced by its `next` link. -/
def pop (st : AtomicStack) : Option Nat × AtomicStack :=
  if st.headPtr = 0 then (none, st)
  else
    (some st.headPtr,
      { st with headPtr := st.smem st.headPtr, tag := inc64 st.tag })

/-- `AtomicStack::empty`. -/
def isEmpty (st : AtomicStack) : Bool := st.headPtr == 0

end AtomicStack

/-- **C8.** On the sequentialised chunk stack, popping an empty stack returns
null; pushing three distinct chunks a, b, c and then popping three times
yields c, b, a and leaves the stack empty. -/
theorem C8_stack_lifo (st : AtomicStack) (a b c : Nat)
    (hE : st.headPtr = 0) (ha : a ≠ 0) (hb : b ≠ 0) (hc : c ≠ 0)
    (hab : a ≠ b) (hac : a ≠ c) (hbc : b ≠ c) :
    ((st.pop).1 = none) ∧
    ((((st.push a).push b).push c).pop.1 = some c ∧
     ((((st.push a).push b).push c).pop.2).pop.1 = some b ∧
     (((((st.push a).push b).push c).pop.2).pop.2).pop.1 = some a ∧
     ((((((st.push a).push b).push c).pop.2).pop.2).pop.2).isEmpty = true) := by
  refine ⟨by simp [AtomicStack.pop, hE], ?_⟩
  simp [AtomicStack.push, AtomicStack.pop, AtomicStack.isEmpty, writeWord,
    ha, hb, hc, hab, hac, hbc, Ne.symm hab, Ne.symm hac, Ne.symm hbc, hE]

/-- Witness for C8 at three concrete chunk addresses. -/
theorem C8_stack_lifo_witness :
    let st : AtomicStack := { headPtr := 0, tag := 0, smem := fun _ => 0 }
    ((st.pop).1 = none) ∧
    ((((st.push (2 ^ 21)).push (2 ^ 22)).push (3 * 2 ^ 21)).pop.1 = some (3 * 2 ^ 21) ∧
     ((((st.push (2 ^ 21)).push (2 ^ 22)).push (3 * 2 ^ 21)).pop.2).pop.1 = some (2 ^ 22) ∧
     (((((st.push (2 ^ 21)).push (2 ^ 22)).push (3 * 2 ^ 21)).pop.2).pop.2).pop.1 =
       some (2 ^ 21) ∧
     ((((((st.push (2 ^ 21)).push (2 ^ 22)).push (3 * 2 ^ 21)).pop.2).pop.2).pop.2).isEmpty =
       true) :=
  C8_stack_lifo _ (2 ^ 21) (2 ^ 22) (3 * 2 ^ 21) rfl (by norm_num) (by norm_num)
    (by norm_num) (by norm_num) (by norm_num) (by norm_num)

/-! ### Thread arena (`thread_arena.hpp`)

The arena owns one bin per size class; each bin has one current (active)
slab plus the partial and full side lists.  The world outside the arena is
the shared chunk stack, the chunks that `HugepageProvider::allocate_chunk`
(mmap) would hand out next, the pages a large-path mmap would return next,
and the log of regions released with munmap. -/

structure Env where
  stack : AtomicStack
  osSupply : List Nat
  osLarge : List Nat
  unmapped : List Nat

/-- `ThreadArena::request_chunk`: pop the global stack; if it is empty, mmap
a fresh chunk (null on OOM). -/
def requestChunk (e : Env) : Option Nat × Env :=
  let r := e.stack.pop
  match r.1 with
  | some c => (some c, { e with stack := r.2 })
  | none =>
    match e.osSupply with
    | c :: rest => (some c, { e with stack := r.2, osSupply := rest })
    | [] => (none, { e with stack := r.2 })

/-- `ThreadArena::return_chunk`: push to the global stack — never unmap. -/
def returnChunk (e : Env) (c : Nat) : Env :=
  if c ≠ 0 then { e with stack := e.stack.push c } else e

/-- One `SizeClassBin`: the active slab and the two side lists. -/
structure Bin where
  current : Option SlabState
  partSlabs : List SlabState
  fullSlabs : List SlabState

def emptyBin : Bin := { current := none, partSlabs := [], fullSlabs := [] }

/-- All slabs owned by a bin (active first, then the side lists). -/
def binSlabs (bin : Bin) : List SlabState :=
  (match bin.current with | some s => [s] | none => []) ++
    bin.partSlabs ++ bin.fullSlabs

structure ArenaState where
  bins : Nat → Bin

def emptyArena : ArenaState := { bins := fun _ => emptyBin }

/-- Block size of the slab specialisation bin `c` dispatches to. -/
def bsOf (c : Nat) : Nat := SizeClass.block_size c

/-- `internal::kSlabBaseMask = ~(kChunkSize - 1)` on `uintptr_t`. -/
def kSlabBaseMask : Nat := complement64 (kChunkSize - 1)

/-- `internal::slab_base_from_ptr`. -/
def slab_base_from_ptr (p : Nat) : Nat := p &&& kSlabBaseMask

/-- The base-mask recovers the chunk base of any interior pointer of a
chunk-aligned slab. -/
theorem slab_base_from_ptr_eq (base p : Nat) (hal : base % kChunkSize = 0)
    (h1 : base ≤ p) (h2 : p < base + kChunkSize) (h64 : p < 2 ^ 64) :
    slab_base_from_ptr p = base := by
  have hk : kChunkSize = 2 ^ 21 := rfl
  rw [slab_base_from_ptr, kSlabBaseMask, hk,
    land_complement64 21 p (by norm_num) h64]
  rw [hk] at hal h2
  obtain ⟨q, hq⟩ := Nat.dvd_of_mod_eq_zero hal
  subst hq
  have hdiv : p / 2 ^ 21 = q := by
    apply Nat.div_eq_of_lt_le
    · rw [Nat.mul_comm]; exact h1
    · rw [Nat.succ_mul, Nat.mul_comm]; omega
  rw [hdiv]

/-- `ThreadArena::allocate_large`: a dedicated anonymous mapping (null when
the kernel refuses). -/
def allocateLarge (a : ArenaState) (e : Env) (n : Nat) : Option Nat × ArenaState × Env :=
  match e.osLarge with
  | p :: rest => (some p, a, { e with osLarge := rest })
  | [] => (none, a, e)

/-- `ThreadArena::deallocate_large`: munmap of the rounded-up region. -/
def deallocateLarge (e : Env) (p n : Nat) : Env :=
  { e with unmapped := e.unmapped ++ [p] }

/-- First step of `ThreadArena::allocate_slow`: a (necessarily full) current
slab is pushed onto the full list and the active slot is cleared. -/
def binToFull (bin : Bin) : Bin :=
  match bin.current with
  | some s => { bin with current := none, fullSlabs := bin.fullSlabs ++ [s] }
  | none => bin

/-- `ThreadArena::allocate_slow` (cold path): a full current slab moves to the
full list; then the most recently used partial slab is activated, else a
fresh chunk is requested and carved into a new slab for this class. -/
def allocateSlow (c : Nat) (bin : Bin) (e : Env) : Option Nat × Bin × Env :=
  let bin1 := binToFull bin
  match bin1.partSlabs.getLast? with
  | some s =>
    let r := Slab.allocate (bsOf c) s
    (r.1, { bin1 with current := some r.2, partSlabs := bin1.partSlabs.dropLast }, e)
  | none =>
    match requestChunk e with
    | (some chunk, e') =>
      let r := Slab.allocate (bsOf c) (Slab.init (bsOf c) chunk (fun _ => 0))
      (r.1, { bin1 with current := some r.2 }, e')
    | (none, e') => (none, bin1, e')

/-- `ThreadArena::allocate`: large requests bypass the bins; otherwise the
active slab of the class's bin is tried first and the slow path only runs
when that fails. -/
def ArenaState.allocate (a : ArenaState) (e : Env) (n : Nat) :
    Option Nat × ArenaState × Env :=
  if SizeClass.is_large n then
    allocateLarge a e n
  else
    let c := SizeClass.index n
    let bin := a.bins c
    match bin.current with
    | some s =>
      let r := Slab.allocate (bsOf c) s
      match r.1 with
      | some p =>
        (some p,
          { a with bins := Function.update a.bins c ({ bin with current := some r.2 }) }, e)
      | none =>
        let rs := allocateSlow c bin e
        (rs.1, { a with bins := Function.update a.bins c rs.2.1 }, rs.2.2)
    | none =>
      let rs := allocateSlow c bin e
      (rs.1, { a with bins := Function.update a.bins c rs.2.1 }, rs.2.2)

/-- Linear search of the partial list in `ThreadArena::deallocate_slow`:
deallocate into the first slab whose base matches. -/
def deallocPartial (bs : Nat) : List SlabState → Nat → Nat → Option (List SlabState)
  | [], _, _ => none
  | s :: rest, sb, p =>
    if s.base = sb then some (Slab.deallocate bs s p :: rest)
    else (deallocPartial bs rest sb p).map (fun l => s :: l)

/-- Linear search of the full list: extract the first slab whose base
matches. -/
def extractFull : List SlabState → Nat → Option (SlabState × List SlabState)
  | [], _ => none
  | s :: rest, sb =>
    if s.base = sb then some (s, rest)
    else (extractFull rest sb).map (fun r => (r.1, s :: r.2))

/-- `ThreadArena::deallocate_slow` (cold path): search the partial list, then
the full list (moving a matching full slab to the partial list); unmatched
pointers are silently ignored. -/
def deallocateSlow (bs : Nat) (bin : Bin) (sb p : Nat) : Bin :=
  match deallocPartial bs bin.partSlabs sb p with
  | some l => { bin with partSlabs := l }
  | none =>
    match extractFull bin.fullSlabs sb with
    | some (s, rest) =>
      { bin with partSlabs := bin.partSlabs ++ [Slab.deallocate bs s p],
                 fullSlabs := rest }
    | none => bin

/-- `ThreadArena::deallocate`: null is a no-op; large requests unmap; the
active slab is tried by base equality before the cold search. -/
def ArenaState.deallocate (a : ArenaState) (e : Env) (p n : Nat) : ArenaState × Env :=
  if p = 0 then (a, e)
  else if SizeClass.is_large n then
    (a, deallocateLarge e p n)
  else
    let c := SizeClass.index n
    let bin := a.bins c
    let sb := slab_base_from_ptr p
    match bin.current with
    | some s =>
      if s.base = sb then
        let bin' : Bin := { bin with current := some (Slab.deallocate (bsOf c) s p) }
        ({ a with bins := Function.update a.bins c bin' }, e)
      else
        ({ a with bins := Function.update a.bins c (deallocateSlow (bsOf c) bin sb p) }, e)
    | none =>
      ({ a with bins := Function.update a.bins c (deallocateSlow (bsOf c) bin sb p) }, e)

/-- Chunk bases cached by one bin, in destructor traversal order. -/
def binChunks (bin : Bin) : List Nat :=
  (match bin.current with | some s => [s.base] | none => []) ++
    bin.partSlabs.map SlabState.base ++ bin.fullSlabs.map SlabState.base

/-- Chunk bases cached by the whole arena, in destructor traversal order. -/
def arenaChunks (a : ArenaState) : List Nat :=
  ((List.range 24).map (fun c => binChunks (a.bins c))).flatten

/-- `ThreadArena::~ThreadArena`: return every cached chunk (current, partial,
full, bin by bin) to the global stack. -/
def ArenaState.destroy (a : ArenaState) (e : Env) : Env :=
  (List.range 24).foldl (fun e c =>
    let bin := a.bins c
    let e1 := match bin.current with
      | some s => returnChunk e s.base
      | none => e
    let e2 := bin.partSlabs.foldl (fun e s => returnChunk e s.base) e1
    bin.fullSlabs.foldl (fun e s => returnChunk e s.base) e2) e

theorem deallocPartial_none (bs : Nat) :
    ∀ (l : List SlabState) (sb p : Nat), (∀ s ∈ l, s.base ≠ sb) →
      deallocPartial bs l sb p = none := by
  intro l
  induction l with
  | nil => intro sb p h; rfl
  | cons s rest ih =>
    intro sb p h
    rw [deallocPartial, if_neg (h s (by simp)), ih sb p (fun t ht => h t (by simp [ht]))]
    rfl

theorem extractFull_none :
    ∀ (l : List SlabState) (sb : Nat), (∀ s ∈ l, s.base ≠ sb) →
      extractFull l sb = none := by
  intro l
  induction l with
  | nil => intro sb h; rfl
  | cons s rest ih =>
    intro sb h
    rw [extractFull, if_neg (h s (by simp)), ih sb (fun t ht => h t (by simp [ht]))]
    rfl

theorem deallocateSlow_no_match (bs : Nat) (bin : Bin) (sb p : Nat)
    (h : ∀ s ∈ binSlabs bin, s.base ≠ sb) : deallocateSlow bs bin sb p = bin := by
  have hp : ∀ s ∈ bin.partSlabs, s.base ≠ sb := fun s hs =>
    h s (by simp [binSlabs, hs])
  have hf : ∀ s ∈ bin.fullSlabs, s.base ≠ sb := fun s hs =>
    h s (by simp [binSlabs, hs])
  rw [deallocateSlow, deallocPartial_none bs _ _ _ hp, extractFull_none _ _ hf]

theorem arena_update_self (a : ArenaState) (c : Nat) :
    ({ a with bins := Function.update a.bins c (a.bins c) } : ArenaState) = a := by
  have h : Function.update a.bins c (a.bins c) = a.bins := Function.update_eq_self c a.bins
  rw [h]

/-- **C9.** `ThreadArena::deallocate` on a null pointer is a no-op; a nonnull
slab-regime pointer whose chunk base matches no slab in the class's bin is
silently ignored, leaving arena and environment unchanged. -/
theorem C9_arena_deallocate_noop (a : ArenaState) (e : Env) (n p : Nat) :
    (ArenaState.deallocate a e 0 n = (a, e)) ∧
    (p ≠ 0 → SizeClass.is_large n = false →
      (∀ s ∈ binSlabs (a.bins (SizeClass.index n)), s.base ≠ slab_base_from_ptr p) →
      ArenaState.deallocate a e p n = (a, e)) := by
  constructor
  · rw [ArenaState.deallocate, if_pos rfl]
  · intro hp hl hno
    rw [ArenaState.deallocate, if_neg hp, if_neg (by rw [hl]; exact Bool.false_ne_true)]
    simp only
    rcases hc : (a.bins (SizeClass.index n)).current with _ | s
    · simp only [deallocateSlow_no_match _ _ _ _ hno, arena_update_self]
    · have hs : s.base ≠ slab_base_from_ptr p := by
        apply hno
        simp [binSlabs, hc]
      simp only [deallocateSlow_no_match _ _ _ _ hno, if_neg hs, arena_update_self]

/-- Witness for C9 on a fresh arena and an unknown pointer. -/
theorem C9_arena_deallocate_noop_witness :
    let e : Env := { stack := { headPtr := 0, tag := 0, smem := fun _ => 0 },
                     osSupply := [], osLarge := [], unmapped := [] }
    ArenaState.deallocate emptyArena e 0 16 = (emptyArena, e) ∧
    ArenaState.deallocate emptyArena e 5 16 = (emptyArena, e) := by
  intro e
  refine ⟨(C9_arena_deallocate_noop emptyArena e 16 5).1, ?_⟩
  exact (C9_arena_deallocate_noop emptyArena e 16 5).2 (by norm_num) (by decide)
    (by simp [emptyArena, emptyBin, binSlabs])

/-! ### C7: the destructor pushes every cached chunk, never unmapping -/

/-- Push a list of chunks through `return_chunk` in order. -/
def pushAllChunks (e : Env) (cs : List Nat) : Env := cs.foldl returnChunk e

theorem returnChunk_fields (e : Env) (c : Nat) :
    (returnChunk e c).osSupply = e.osSupply ∧ (returnChunk e c).osLarge = e.osLarge ∧
    (returnChunk e c).unmapped = e.unmapped := by
  rw [returnChunk]
  split <;> exact ⟨rfl, rfl, rfl⟩

theorem foldl_returnChunk_base (l : List SlabState) (e : Env) :
    l.foldl (fun e s => returnChunk e s.base) e =
      pushAllChunks e (l.map SlabState.base) := by
  rw [pushAllChunks, List.foldl_map]

theorem pushAllChunks_append (e : Env) (l1 l2 : List Nat) :
    pushAllChunks e (l1 ++ l2) = pushAllChunks (pushAllChunks e l1) l2 := by
  rw [pushAllChunks, pushAllChunks, pushAllChunks, List.foldl_append]

theorem destroy_eq_pushAll (a : ArenaState) (e : Env) :
    ArenaState.destroy a e = pushAllChunks e (arenaChunks a) := by
  rw [ArenaState.destroy, arenaChunks]
  generalize List.range 24 = l
  induction l generalizing e with
  | nil => rfl
  | cons c rest ih =>
    rw [List.foldl_cons, List.map_cons, List.flatten_cons, pushAllChunks_append, ← ih]
    congr 1
    simp only
    rw [binChunks, pushAllChunks_append, pushAllChunks_append,
      ← foldl_returnChunk_base, ← foldl_returnChunk_base]
    congr 1
    congr 1
    rcases (a.bins c).current with _ | s
    · rfl
    · rw [pushAllChunks, List.foldl_cons, List.foldl_nil]

theorem pushAllChunks_chain :
    ∀ (cs : List Nat) (e : Env) (l0 : List Nat),
      chain e.stack.smem e.stack.headPtr l0 → (∀ c ∈ cs, c ≠ 0) → cs.Nodup →
      (∀ c ∈ cs, c ∉ l0) →
      chain (pushAllChunks e cs).stack.smem (pushAllChunks e cs).stack.headPtr
        (cs.reverse ++ l0) ∧
      (pushAllChunks e cs).osSupply = e.osSupply ∧
      (pushAllChunks e cs).osLarge = e.osLarge ∧
      (pushAllChunks e cs).unmapped = e.unmapped := by
  intro cs
  induction cs with
  | nil =>
    intro e l0 hch _ _ _
    exact ⟨by simpa using hch, rfl, rfl, rfl⟩
  | cons c rest ih =>
    intro e l0 hch h0 hnd hdis
    have hc0 : c ≠ 0 := h0 c (by simp)
    have hret : returnChunk e c =
        { e with stack := { headPtr := c, tag := inc64 e.stack.tag,
                            smem := writeWord e.stack.smem c e.stack.headPtr } } := by
      rw [returnChunk, if_pos hc0, AtomicStack.push, if_neg hc0]
    have hch1 : chain (returnChunk e c).stack.smem (returnChunk e c).stack.headPtr
        (c :: l0) := by
      rw [hret]
      refine ⟨rfl, hc0, ?_⟩
      have hv : writeWord e.stack.smem c e.stack.headPtr c = e.stack.headPtr := by
        rw [writeWord, if_pos rfl]
      show chain (writeWord e.stack.smem c e.stack.headPtr)
        (writeWord e.stack.smem c e.stack.headPtr c) l0
      rw [hv]
      exact chain_write_of_not_mem _ _ _ l0 _ hch
        (fun q hq he => (hdis c (by simp)) (he ▸ hq))
    have hfields := returnChunk_fields e c
    have hrec := ih (returnChunk e c) (c :: l0) hch1
      (fun x hx => h0 x (by simp [hx]))
      ((List.nodup_cons.mp hnd).2)
      (fun x hx => by
        have hxc : x ≠ c := fun he => (List.nodup_cons.mp hnd).1 (he ▸ hx)
        have hxl : x ∉ l0 := hdis x (by simp [hx])
        simp [hxc, hxl])
    have hlist : rest.reverse ++ (c :: l0) = (c :: rest).reverse ++ l0 := by
      simp
    refine ⟨?_, ?_, ?_, ?_⟩
    · rw [pushAllChunks, List.foldl_cons, ← pushAllChunks]
      rw [← hlist]
      exact hrec.1
    · rw [pushAllChunks, List.foldl_cons, ← pushAllChunks, hrec.2.1, hfields.1]
    · rw [pushAllChunks, List.foldl_cons, ← pushAllChunks, hrec.2.2.1, hfields.2.1]
    · rw [pushAllChunks, List.foldl_cons, ← pushAllChunks, hrec.2.2.2, hfields.2.2]

/-- **C7.** The arena never gives a slab chunk back to the OS: destroying an
arena pushes every cached chunk base (active, partial and full slabs alike)
onto the global chunk stack, the munmap log is untouched, the mmap supply is
untouched, and `return_chunk` itself never unmaps anything. -/
theorem C7_destructor_returns_chunks (a : ArenaState) (e : Env) (l0 : List Nat)
    (hch : chain e.stack.smem e.stack.headPtr l0)
    (h0 : ∀ c ∈ arenaChunks a, c ≠ 0) (hnd : (arenaChunks a).Nodup)
    (hdis : ∀ c ∈ arenaChunks a, c ∉ l0) :
    chain (ArenaState.destroy a e).stack.smem (ArenaState.destroy a e).stack.headPtr
      ((arenaChunks a).reverse ++ l0) ∧
    (ArenaState.destroy a e).unmapped = e.unmapped ∧
    (ArenaState.destroy a e).osSupply = e.osSupply ∧
    (∀ (e' : Env) (c : Nat), (returnChunk e' c).unmapped = e'.unmapped) := by
  have hd := destroy_eq_pushAll a e
  have hp := pushAllChunks_chain (arenaChunks a) e l0 hch h0 hnd hdis
  rw [hd]
  exact ⟨hp.1, hp.2.2.2, hp.2.1, fun e' c => (returnChunk_fields e' c).2.2⟩

/-- Witness for C7: an arena whose class-0 bin caches one slab over the chunk
at 2 MiB, destroyed into an empty stack. -/
theorem C7_destructor_returns_chunks_witness :
    let a : ArenaState :=
      { bins := fun c =>
          if c = 0 then
            { current := some
                { base := 2 ^ 21, free_head := 0, allocated_count := 0
                  occupancy := Bitmap.init (blocksPerSlab 16), mem := fun _ => 0 }
              partSlabs := [], fullSlabs := [] }
          else emptyBin }
    let e : Env := { stack := { headPtr := 0, tag := 0, smem := fun _ => 0 },
                     osSupply := [], osLarge := [], unmapped := [] }
    chain (ArenaState.destroy a e).stack.smem (ArenaState.destroy a e).stack.headPtr
      ((arenaChunks a).reverse ++ []) ∧
    (ArenaState.destroy a e).unmapped = e.unmapped ∧
    (ArenaState.destroy a e).osSupply = e.osSupply ∧
    (∀ (e' : Env) (c : Nat), (returnChunk e' c).unmapped = e'.unmapped) := by
  intro a e
  exact C7_destructor_returns_chunks a e [] rfl (by decide) (by decide) (by decide)

/-! ### Arena representation invariant

`SlabOK bs o s` is the per-slab well-formedness used at arena level: the free
list is a null-terminated chain of distinct blocks disjoint from the
outstanding set `o` of the class, outstanding pointers inside this slab's
range are proper blocks, and the free-list length complements
`allocated_count`. -/

def chunkOK (c : Nat) : Prop :=
  c ≠ 0 ∧ c % kChunkSize = 0 ∧ c + kChunkSize ≤ 2 ^ 64

def inRangeB (b p : Nat) : Prop := b ≤ p ∧ p < b + kChunkSize

def inRange (s : SlabState) (p : Nat) : Prop := inRangeB s.base p

def SlabOK (bs : Nat) (o : Finset Nat) (s : SlabState) : Prop :=
  chunkOK s.base ∧
  ∃ fl, chain s.mem s.free_head fl ∧ fl.Nodup ∧
    (∀ p ∈ fl, isBlock bs s.base p) ∧
    (∀ p ∈ fl, p ∉ o) ∧
    (∀ p ∈ o, inRange s p → isBlock bs s.base p) ∧
    fl.length + s.allocated_count = blocksPerSlab bs

theorem isBlock_inRange (bs : Nat) (s : SlabState) (p : Nat) (hbs : 0 < bs)
    (hb : isBlock bs s.base p) : inRange s p := by
  obtain ⟨i, hi, rfl⟩ := hb
  have := block_arith bs i hi
  constructor
  · omega
  · have hbspos : 0 < bs := hbs
    omega

theorem ranges_disjoint (b1 b2 p : Nat) (h1 : b1 % kChunkSize = 0)
    (h2 : b2 % kChunkSize = 0) (hne : b1 ≠ b2)
    (hp1 : b1 ≤ p ∧ p < b1 + kChunkSize) (hp2 : b2 ≤ p ∧ p < b2 + kChunkSize) : False := by
  have hC : 0 < kChunkSize := by rw [kChunkSize]; norm_num
  obtain ⟨q1, hq1⟩ := Nat.dvd_of_mod_eq_zero h1
  obtain ⟨q2, hq2⟩ := Nat.dvd_of_mod_eq_zero h2
  subst hq1; subst hq2
  have e1 : p / kChunkSize = q1 := by
    apply Nat.div_eq_of_lt_le
    · rw [Nat.mul_comm]; exact hp1.1
    · rw [Nat.succ_mul, Nat.mul_comm]; omega
  have e2 : p / kChunkSize = q2 := by
    apply Nat.div_eq_of_lt_le
    · rw [Nat.mul_comm]; exact hp2.1
    · rw [Nat.succ_mul, Nat.mul_comm]; omega
  exact hne (by rw [e1.symm.trans e2])

theorem nodup_blocks_length (bs base : Nat) (hbs : 0 < bs) (l : List Nat)
    (hnd : l.Nodup) (hb : ∀ p ∈ l, isBlock bs base p) :
    l.length ≤ blocksPerSlab bs := by
  classical
  have hsub : l.toFinset ⊆ (Finset.range (blocksPerSlab bs)).image
      (fun i => base + i * bs) := by
    intro p hp
    obtain ⟨i, hi, rfl⟩ := hb p (List.mem_toFinset.mp hp)
    exact Finset.mem_image.mpr ⟨i, Finset.mem_range.mpr hi, rfl⟩
  calc l.length = l.toFinset.card := (List.toFinset_card_of_nodup hnd).symm
  _ ≤ ((Finset.range (blocksPerSlab bs)).image (fun i => base + i * bs)).card :=
      Finset.card_le_card hsub
  _ ≤ (Finset.range (blocksPerSlab bs)).card := Finset.card_image_le
  _ = blocksPerSlab bs := Finset.card_range _

/-- A fresh slab over a chunk disjoint from the outstanding set. -/
theorem SlabOK_init (bs chunk : Nat) (o : Finset Nat) (hbs : 0 < bs)
    (hC : bs ≤ kChunkSize) (hch : chunkOK chunk)
    (ho : ∀ p ∈ o, ¬ (chunk ≤ p ∧ p < chunk + kChunkSize)) :
    SlabOK bs o (Slab.init bs chunk (fun _ => 0)) ∧
    (Slab.init bs chunk (fun _ => 0)).free_head = chunk ∧
    (Slab.init bs chunk (fun _ => 0)).base = chunk := by
  have hrep := SRep_init bs chunk (fun _ => 0) hbs hC hch.1
  have hbase : (Slab.init bs chunk (fun _ => 0)).base = chunk := by
    rw [Slab.init, if_neg hch.1]
  have hfh : (Slab.init bs chunk (fun _ => 0)).free_head = chunk := by
    rw [Slab.init, if_neg hch.1]
  refine ⟨⟨by rw [hbase]; exact hch, initFreeList bs chunk, hrep.chain_ok, hrep.nodup,
    hrep.fl_blocks, ?_, ?_, ?_⟩, hfh, hbase⟩
  · intro p hp hpo
    obtain ⟨i, hi, rfl⟩ := hrep.fl_blocks p hp
    have hin : chunk ≤ (Slab.init bs chunk (fun _ => 0)).base + i * bs ∧
        (Slab.init bs chunk (fun _ => 0)).base + i * bs <
          chunk + kChunkSize := by
      rw [hbase]
      have := block_arith bs i hi
      omega
    exact ho _ hpo hin
  · intro p hpo hin
    exfalso
    rw [inRange, hbase] at hin
    exact ho p hpo hin
  · have := hrep.len_eq
    have hcnt : (Slab.init bs chunk (fun _ => 0)).allocated_count = 0 := by
      rw [Slab.init, if_neg hch.1]
    rw [hcnt]
    simpa using this

/-- Successful pop of the slab free list (arena-level view). -/
theorem SlabOK_allocate (bs : Nat) (o : Finset Nat) (s : SlabState) (hbs : 0 < bs)
    (hok : SlabOK bs o s) (hne : s.free_head ≠ 0) :
    (Slab.allocate bs s).1 = some s.free_head ∧
    isBlock bs s.base s.free_head ∧ s.free_head ∉ o ∧
    SlabOK bs (insert s.free_head o) (Slab.allocate bs s).2 ∧
    (Slab.allocate bs s).2.base = s.base ∧
    (Slab.allocate bs s).2.allocated_count = s.allocated_count + 1 := by
  obtain ⟨hck, fl, hchain, hnd, hblocks, hout, hcover, hlen⟩ := hok
  cases fl with
  | nil => exact absurd hchain hne
  | cons p rest =>
    obtain ⟨hhead, hp0, hrest⟩ := hchain
    subst hhead
    have hblk := hblocks s.free_head (by simp)
    have hcnt : s.allocated_count + 1 ≤ blocksPerSlab bs := by
      simp only [List.length_cons] at hlen
      omega
    have hcnt64 : s.allocated_count + 1 < 2 ^ 64 := by
      have h2 : blocksPerSlab bs ≤ kChunkSize := blocksPerSlab_le bs
      have h3 : kChunkSize < 2 ^ 64 := by rw [kChunkSize]; norm_num
      omega
    have hres : Slab.allocate bs s =
        (some s.free_head,
          { s with free_head := s.mem s.free_head,
                   allocated_count := inc64 s.allocated_count,
                   occupancy := s.occupancy.set (Slab.block_index bs s s.free_head) }) := by
      rw [Slab.allocate, if_neg hne]
    rw [hres]
    refine ⟨rfl, hblk, hout s.free_head (by simp), ?_, rfl, by
      show inc64 s.allocated_count = s.allocated_count + 1
      exact inc64_eq _ hcnt64⟩
    refine ⟨hck, rest, hrest, (List.nodup_cons.mp hnd).2,
      fun q hq => hblocks q (by simp [hq]), ?_, ?_, ?_⟩
    · intro q hq
      have hqp : q ≠ s.free_head := fun he => (List.nodup_cons.mp hnd).1 (he ▸ hq)
      have hqo : q ∉ o := hout q (by simp [hq])
      simp [Finset.mem_insert, hqp, hqo]
    · intro q hq hqr
      rcases Finset.mem_insert.mp hq with rfl | hq
      · exact hblk
      · exact hcover q hq hqr
    · show rest.length + inc64 s.allocated_count = blocksPerSlab bs
      rw [inc64_eq _ hcnt64]
      simp only [List.length_cons] at hlen
      omega

/-- Deallocating an outstanding pointer of this slab (arena-level view). -/
theorem SlabOK_deallocate (bs : Nat) (o : Finset Nat) (s : SlabState) (p : Nat)
    (hbs : 0 < bs) (hok : SlabOK bs o s) (hp : p ∈ o) (hin : inRange s p) :
    SlabOK bs (o.erase p) (Slab.deallocate bs s p) ∧
    (Slab.deallocate bs s p).free_head = p ∧
    (Slab.deallocate bs s p).base = s.base ∧ p ≠ 0 ∧
    (Slab.deallocate bs s p).allocated_count + 1 = s.allocated_count := by
  obtain ⟨hck, fl, hchain, hnd, hblocks, hout, hcover, hlen⟩ := hok
  have hblk : isBlock bs s.base p := hcover p hp hin
  obtain ⟨i, hi, hpi⟩ := hblk
  have hp0 : p ≠ 0 := by
    have := hck.1
    rw [hpi]
    omega
  have hcont : Slab.contains s p = true := by
    rw [hpi]
    exact contains_block bs s i hbs hi
  have hpfl : p ∉ fl := fun hf => hout p hf hp
  have hlenlt : fl.length < blocksPerSlab bs := by
    have hle := nodup_blocks_length bs s.base hbs (p :: fl)
      (List.nodup_cons.mpr ⟨hpfl, hnd⟩)
      (fun q hq => by
        rcases List.mem_cons.mp hq with rfl | hq
        · exact ⟨i, hi, hpi⟩
        · exact hblocks q hq)
    simp only [List.length_cons] at hle
    omega
  have hcpos : 0 < s.allocated_count := by omega
  have hc64 : s.allocated_count < 2 ^ 64 := by
    have h2 : blocksPerSlab bs ≤ kChunkSize := blocksPerSlab_le bs
    have h3 : kChunkSize < 2 ^ 64 := by rw [kChunkSize]; norm_num
    omega
  have hres : Slab.deallocate bs s p =
      { s with occupancy := s.occupancy.clear (Slab.block_index bs s p),
               mem := writeWord s.mem p s.free_head,
               free_head := p,
               allocated_count := dec64 s.allocated_count } := by
    rw [Slab.deallocate, if_neg (by simp [hp0, hcont])]
  rw [hres]
  refine ⟨?_, rfl, rfl, hp0, by
    show dec64 s.allocated_count + 1 = s.allocated_count
    rw [dec64_eq _ hcpos hc64]
    omega⟩
  refine ⟨hck, p :: fl, ?_, List.nodup_cons.mpr ⟨hpfl, hnd⟩, ?_, ?_, ?_, ?_⟩
  · refine ⟨rfl, hp0, ?_⟩
    have hv : writeWord s.mem p s.free_head p = s.free_head := by
      rw [writeWord, if_pos rfl]
    show chain (writeWord s.mem p s.free_head) (writeWord s.mem p s.free_head p) fl
    rw [hv]
    exact chain_write_of_not_mem _ _ _ fl _ hchain (fun q hq he => hpfl (he ▸ hq))
  · intro q hq
    rcases List.mem_cons.mp hq with rfl | hq
    · exact ⟨i, hi, hpi⟩
    · exact hblocks q hq
  · intro q hq
    rcases List.mem_cons.mp hq with rfl | hq
    · exact Finset.not_mem_erase _ _
    · exact fun he => hout q hq (Finset.mem_of_mem_erase he)
  · intro q hq hqr
    exact hcover q (Finset.mem_of_mem_erase hq) hqr
  · show (p :: fl).length + dec64 s.allocated_count = blocksPerSlab bs
    rw [dec64_eq _ hcpos hc64]
    simp only [List.length_cons]
    omega

/-- A slab is unaffected when a pointer outside its range becomes
outstanding. -/
theorem SlabOK_insert_out (bs : Nat) (o : Finset Nat) (s : SlabState) (p : Nat)
    (hbs : 0 < bs) (hok : SlabOK bs o s) (hnr : ¬ inRange s p) :
    SlabOK bs (insert p o) s := by
  obtain ⟨hck, fl, hchain, hnd, hblocks, hout, hcover, hlen⟩ := hok
  refine ⟨hck, fl, hchain, hnd, hblocks, ?_, ?_, hlen⟩
  · intro q hq
    have hq1 : q ∉ o := hout q hq
    have hq2 : q ≠ p := by
      intro he
      rw [he] at hq
      exact hnr (isBlock_inRange bs s p hbs (hblocks p hq))
    simp [Finset.mem_insert, hq1, hq2]
  · intro q hq hqr
    rcases Finset.mem_insert.mp hq with rfl | hq
    · exact absurd hqr hnr
    · exact hcover q hq hqr

/-- A slab is unaffected when the outstanding set shrinks. -/
theorem SlabOK_subset (bs : Nat) (o o' : Finset Nat) (s : SlabState)
    (hsub : o' ⊆ o) (hok : SlabOK bs o s) : SlabOK bs o' s := by
  obtain ⟨hck, fl, hchain, hnd, hblocks, hout, hcover, hlen⟩ := hok
  exact ⟨hck, fl, hchain, hnd, hblocks, fun q hq hqo => hout q hq (hsub hqo),
    fun q hq hqr => hcover q (hsub hq) hqr, hlen⟩

/-- A non-empty free list forces at least one free block; an empty one forces
a full slab. -/
theorem SlabOK_free_blocks (bs : Nat) (o : Finset Nat) (s : SlabState) (hbs : 0 < bs)
    (hok : SlabOK bs o s) :
    (s.free_head ≠ 0 → 1 ≤ Slab.free_blocks bs s) ∧
    (s.free_head = 0 → Slab.free_blocks bs s = 0) := by
  obtain ⟨hck, fl, hchain, hnd, hblocks, hout, hcover, hlen⟩ := hok
  constructor
  · intro hne
    cases fl with
    | nil => exact absurd hchain hne
    | cons p rest =>
      rw [Slab.free_blocks]
      simp only [List.length_cons] at hlen
      omega
  · intro h0
    cases fl with
    | nil =>
      rw [Slab.free_blocks]
      simp only [List.length_nil] at hlen
      omega
    | cons p rest =>
      obtain ⟨hhead, hp0, _⟩ := hchain
      exact absurd (hhead ▸ h0) hp0

/-! ### Bin and arena invariants -/

/-- Chunk bases of a bin's slabs (active first). -/
def binBases (bin : Bin) : List Nat := (binSlabs bin).map SlabState.base

/-- Per-bin invariant relative to the class's outstanding set `o`: every slab
is well formed, partial slabs have a nonempty free list, full slabs an empty
one, bases are pairwise distinct, and every outstanding pointer lies in the
range of one of the bin's slabs. -/
def BinOK (bs : Nat) (o : Finset Nat) (bin : Bin) : Prop :=
  (∀ s ∈ binSlabs bin, SlabOK bs o s) ∧
  (∀ s ∈ bin.partSlabs, s.free_head ≠ 0) ∧
  (∀ s ∈ bin.fullSlabs, s.free_head = 0) ∧
  (binBases bin).Nodup ∧
  (∀ p ∈ o, ∃ b ∈ binBases bin, inRangeB b p)

/-- The chunk sources (global stack contents and mmap supply) hold aligned,
pairwise distinct chunks that collide with no slab cached in the arena. -/
def EnvOK (a : ArenaState) (e : Env) : Prop :=
  ∃ sl, chain e.stack.smem e.stack.headPtr sl ∧
    (sl ++ e.osSupply).Nodup ∧
    (∀ ch ∈ sl ++ e.osSupply, chunkOK ch ∧ ∀ c, c < 24 → ch ∉ binBases (a.bins c))

structure ArenaInv (a : ArenaState) (e : Env) (outS : Nat → Finset Nat) : Prop where
  bins_ok : ∀ c, c < 24 → BinOK (bsOf c) (outS c) (a.bins c)
  env_ok : EnvOK a e

theorem bsOf_bounds : ∀ c, c < 24 → 16 ≤ bsOf c ∧ bsOf c ≤ kChunkSize := by decide

theorem index_lt_24 (n : Nat) (h : SizeClass.is_large n = false) :
    SizeClass.index n < 24 := by
  have hle : n ≤ 65536 := by
    rw [SizeClass.is_large] at h
    simp only [SizeClass.kMaxSlabSize, gt_iff_lt, decide_eq_false_iff_not, not_lt] at h
    exact h
  rcases Nat.eq_zero_or_pos n with rfl | hpos
  · decide
  · rcases Nat.lt_or_ge n 257 with hsmall | hbig
    · have := (SizeClass.round_trip_small n hsmall hpos).2.1
      simpa [SizeClass.kNumClasses, SizeClass.kNumSmallClasses,
        SizeClass.kNumLargeClasses] using this
    · rw [SizeClass.index_medium n hbig hle]
      have : Nat.log2 (n - 1) < 16 := by
        rw [Nat.log2_lt (by omega)]
        omega
      omega

theorem mem_binSlabs_current {bin : Bin} {s : SlabState} (h : bin.current = some s) :
    s ∈ binSlabs bin := by
  simp [binSlabs, h]

theorem mem_binSlabs_part {bin : Bin} {s : SlabState} (h : s ∈ bin.partSlabs) :
    s ∈ binSlabs bin := by
  simp [binSlabs, h]

theorem mem_binSlabs_full {bin : Bin} {s : SlabState} (h : s ∈ bin.fullSlabs) :
    s ∈ binSlabs bin := by
  simp [binSlabs, h]

/-- Base distinctness lets ranges of two different slabs of a bin never
overlap. -/
theorem slab_ranges_disjoint {bs : Nat} {o : Finset Nat} {s t : SlabState} {p : Nat}
    (hs : SlabOK bs o s) (ht : SlabOK bs o t) (hne : s.base ≠ t.base)
    (hps : inRange s p) : ¬ inRange t p := fun hpt =>
  ranges_disjoint s.base t.base p hs.1.2.1 ht.1.2.1 hne hps hpt

/-- Outcomes of `request_chunk` given the ghost stack contents. -/
theorem requestChunk_cases (e : Env) (sl : List Nat)
    (hch : chain e.stack.smem e.stack.headPtr sl) :
    (sl = [] ∧ e.osSupply = [] ∧ requestChunk e = (none, e)) ∨
    (∃ ch sl', sl = ch :: sl' ∧
      requestChunk e = (some ch,
        { e with stack := { headPtr := e.stack.smem ch, tag := inc64 e.stack.tag,
                            smem := e.stack.smem } }) ∧
      chain e.stack.smem (e.stack.smem ch) sl') ∨
    (∃ ch rest, sl = [] ∧ e.osSupply = ch :: rest ∧
      requestChunk e = (some ch, { e with osSupply := rest })) := by
  cases sl with
  | nil =>
    have h0 : e.stack.headPtr = 0 := hch
    have hpop : e.stack.pop = (none, e.stack) := by
      rw [AtomicStack.pop, if_pos h0]
    cases hos : e.osSupply with
    | nil =>
      left
      refine ⟨rfl, rfl, ?_⟩
      rw [requestChunk]
      simp only [hpop, hos]
      rw [← hos]
    | cons ch rest =>
      right; right
      refine ⟨ch, rest, rfl, rfl, ?_⟩
      rw [requestChunk]
      simp only [hpop, hos]
  | cons ch sl' =>
    obtain ⟨hhead, hne, hrest⟩ := hch
    right; left
    refine ⟨ch, sl', rfl, ?_, hrest⟩
    have hpop : e.stack.pop = (some ch,
        { headPtr := e.stack.smem ch, tag := inc64 e.stack.tag, smem := e.stack.smem }) := by
      rw [AtomicStack.pop, if_neg (by rw [hhead]; exact hne), hhead]
    rw [requestChunk]
    simp only [hpop]

theorem binBases_cons {bin : Bin} {s : SlabState} (hcur : bin.current = some s) :
    binBases bin = s.base :: (bin.partSlabs ++ bin.fullSlabs).map SlabState.base := by
  simp [binBases, binSlabs, hcur]

theorem base_ne_of_nodup {bin : Bin} {s t : SlabState} (hnd : (binBases bin).Nodup)
    (hcur : bin.current = some s) (ht : t ∈ bin.partSlabs ∨ t ∈ bin.fullSlabs) :
    t.base ≠ s.base := by
  have hmem : t.base ∈ (bin.partSlabs ++ bin.fullSlabs).map SlabState.base := by
    rcases ht with h | h
    · exact List.mem_map.mpr ⟨t, List.mem_append.mpr (Or.inl h), rfl⟩
    · exact List.mem_map.mpr ⟨t, List.mem_append.mpr (Or.inr h), rfl⟩
  rw [binBases_cons hcur] at hnd
  intro he
  exact (List.nodup_cons.mp hnd).1 (he ▸ hmem)

/-- Fast-path pop from the active slab. -/
theorem BinOK_fast_alloc (bs : Nat) (o : Finset Nat) (bin : Bin) (s : SlabState)
    (hbs : 0 < bs) (hbin : BinOK bs o bin) (hcur : bin.current = some s)
    (hne : s.free_head ≠ 0) :
    (Slab.allocate bs s).1 = some s.free_head ∧
    BinOK bs (insert s.free_head o) { bin with current := some (Slab.allocate bs s).2 } ∧
    binBases { bin with current := some (Slab.allocate bs s).2 } = binBases bin ∧
    chunkOK (Slab.allocate bs s).2.base ∧
    inRange (Slab.allocate bs s).2 s.free_head := by
  obtain ⟨hall, hpart, hfull, hnd, hcov⟩ := hbin
  have hsok := hall s (mem_binSlabs_current hcur)
  obtain ⟨hres, hblk, hpo, hok', hbase', hcnt'⟩ := SlabOK_allocate bs o s hbs hsok hne
  have hbases : binBases { bin with current := some (Slab.allocate bs s).2 } = binBases bin := by
    simp [binBases, binSlabs, hcur, hbase']
  have hinr : inRange (Slab.allocate bs s).2 s.free_head := by
    rw [inRange, hbase']
    exact isBlock_inRange bs s s.free_head hbs hblk
  refine ⟨hres, ⟨?_, hpart, hfull, by rw [hbases]; exact hnd, ?_⟩, hbases,
    by rw [hbase']; exact hsok.1, hinr⟩
  · intro t ht
    simp only [binSlabs, List.mem_append, List.mem_singleton] at ht
    rcases ht with (ht | ht) | ht
    · rw [ht]; exact hok'
    · exact SlabOK_insert_out bs o t s.free_head hbs (hall t (mem_binSlabs_part ht))
        (slab_ranges_disjoint hsok (hall t (mem_binSlabs_part ht))
          (Ne.symm (base_ne_of_nodup hnd hcur (Or.inl ht)))
          (isBlock_inRange bs s s.free_head hbs hblk))
    · exact SlabOK_insert_out bs o t s.free_head hbs (hall t (mem_binSlabs_full ht))
        (slab_ranges_disjoint hsok (hall t (mem_binSlabs_full ht))
          (Ne.symm (base_ne_of_nodup hnd hcur (Or.inr ht)))
          (isBlock_inRange bs s s.free_head hbs hblk))
  · intro q hq
    rcases Finset.mem_insert.mp hq with rfl | hq
    · refine ⟨(Slab.allocate bs s).2.base, ?_, hinr⟩
      simp [binBases, binSlabs]
    · obtain ⟨b, hbm, hbr⟩ := hcov q hq
      exact ⟨b, by rw [hbases]; exact hbm, hbr⟩

/-- Moving a drained current slab to the full list. -/
theorem BinOK_move_full (bs : Nat) (o : Finset Nat) (bin : Bin) (hbin : BinOK bs o bin)
    (hcur : ∀ s, bin.current = some s → s.free_head = 0) :
    BinOK bs o (binToFull bin) ∧ List.Perm (binBases (binToFull bin)) (binBases bin) ∧
    (binToFull bin).current = none ∧ (binToFull bin).partSlabs = bin.partSlabs := by
  obtain ⟨hall, hpart, hfull, hnd, hcov⟩ := hbin
  rcases hc : bin.current with _ | s
  · rw [binToFull, hc]
    exact ⟨⟨hall, hpart, hfull, hnd, hcov⟩, List.Perm.refl _, hc, rfl⟩
  · have hbt : binToFull bin = { bin with current := none, fullSlabs := bin.fullSlabs ++ [s] } := by
      rw [binToFull, hc]
    have hsl : binSlabs (binToFull bin) = bin.partSlabs ++ (bin.fullSlabs ++ [s]) := by
      rw [hbt]
      simp [binSlabs]
    have hmem : ∀ t, t ∈ binSlabs (binToFull bin) → t ∈ binSlabs bin := by
      intro t ht
      rw [hsl] at ht
      simp only [List.mem_append, List.mem_singleton] at ht
      simp only [binSlabs, hc, List.singleton_append, List.mem_cons, List.mem_append]
      rcases ht with h | h | rfl <;> tauto
    have hperm : List.Perm (binBases (binToFull bin)) (binBases bin) := by
      have h1 : binBases (binToFull bin) =
          (bin.partSlabs.map SlabState.base ++ bin.fullSlabs.map SlabState.base) ++ [s.base] := by
        rw [binBases, hsl]
        simp
      have h2 : binBases bin = s.base ::
          (bin.partSlabs.map SlabState.base ++ bin.fullSlabs.map SlabState.base) := by
        rw [binBases_cons hc, List.map_append]
      rw [h1, h2]
      exact List.perm_append_singleton _ _
    have hp2 : (binToFull bin).partSlabs = bin.partSlabs := by rw [hbt]
    have hf2 : (binToFull bin).fullSlabs = bin.fullSlabs ++ [s] := by rw [hbt]
    have hc2 : (binToFull bin).current = none := by rw [hbt]
    refine ⟨⟨?_, ?_, ?_, ?_, ?_⟩, hperm, hc2, hp2⟩
    · intro t ht
      exact hall t (hmem t ht)
    · intro t ht
      rw [hp2] at ht
      exact hpart t ht
    · intro t ht
      rw [hf2] at ht
      simp only [List.mem_append, List.mem_singleton] at ht
      rcases ht with ht | rfl
      · exact hfull t ht
      · exact hcur t hc
    · exact hperm.nodup_iff.mpr hnd
    · intro q hq
      obtain ⟨b, hbm, hbr⟩ := hcov q hq
      exact ⟨b, hperm.mem_iff.mpr hbm, hbr⟩

/-- Activating the most recent partial slab. -/
def binActivate (bin1 : Bin) (s' : SlabState) : Bin :=
  { bin1 with current := some s', partSlabs := bin1.partSlabs.dropLast }

theorem BinOK_activate_last (bs : Nat) (o : Finset Nat) (bin1 : Bin) (t : SlabState)
    (hbs : 0 < bs) (hbin : BinOK bs o bin1) (hcur : bin1.current = none)
    (hlast : bin1.partSlabs.getLast? = some t) :
    t.free_head ≠ 0 ∧
    (Slab.allocate bs t).1 = some t.free_head ∧
    BinOK bs (insert t.free_head o) (binActivate bin1 (Slab.allocate bs t).2) ∧
    List.Perm (binBases (binActivate bin1 (Slab.allocate bs t).2)) (binBases bin1) ∧
    chunkOK (Slab.allocate bs t).2.base ∧
    inRange (Slab.allocate bs t).2 t.free_head := by
  obtain ⟨hall, hpart, hfull, hnd, hcov⟩ := hbin
  obtain ⟨ys, hys⟩ := List.getLast?_eq_some_iff.mp hlast
  have htm : t ∈ bin1.partSlabs := by rw [hys]; simp
  have hne : t.free_head ≠ 0 := hpart t htm
  have htok := hall t (mem_binSlabs_part htm)
  obtain ⟨hres, hblk, hpo, hok', hbase', hcnt'⟩ := SlabOK_allocate bs o t hbs htok hne
  have hdrop : bin1.partSlabs.dropLast = ys := by rw [hys, List.dropLast_concat]
  have hsl1 : binSlabs bin1 = (ys ++ [t]) ++ bin1.fullSlabs := by
    simp [binSlabs, hcur, hys]
  have hsl2 : binSlabs (binActivate bin1 (Slab.allocate bs t).2) =
      (Slab.allocate bs t).2 :: (ys ++ bin1.fullSlabs) := by
    simp [binSlabs, binActivate, hdrop]
  have hb1 : binBases bin1 =
      ys.map SlabState.base ++ t.base :: bin1.fullSlabs.map SlabState.base := by
    rw [binBases, hsl1]
    simp
  have hb2 : binBases (binActivate bin1 (Slab.allocate bs t).2) =
      t.base :: (ys.map SlabState.base ++ bin1.fullSlabs.map SlabState.base) := by
    rw [binBases, hsl2]
    simp [hbase']
  have hperm : List.Perm (binBases (binActivate bin1 (Slab.allocate bs t).2))
      (binBases bin1) := by
    rw [hb1, hb2]
    exact (List.perm_middle).symm
  have hinr : inRange (Slab.allocate bs t).2 t.free_head := by
    rw [inRange, hbase']
    exact isBlock_inRange bs t t.free_head hbs hblk
  have hnd1 : t.base ∉ ys.map SlabState.base ++ bin1.fullSlabs.map SlabState.base := by
    have := hperm.nodup_iff.mpr hnd
    rw [hb2] at this
    exact (List.nodup_cons.mp this).1
  have hother : ∀ u, u ∈ ys ∨ u ∈ bin1.fullSlabs →
      SlabOK bs (insert t.free_head o) u := by
    intro u hu
    have hum : u ∈ binSlabs bin1 := by
      rw [hsl1]
      rcases hu with h | h
      · simp [h]
      · simp [h]
    have hub : u.base ≠ t.base := by
      intro he
      refine hnd1 ?_
      rw [← he]
      rcases hu with h | h
      · exact List.mem_append.mpr (Or.inl (List.mem_map.mpr ⟨u, h, rfl⟩))
      · exact List.mem_append.mpr (Or.inr (List.mem_map.mpr ⟨u, h, rfl⟩))
    exact SlabOK_insert_out bs o u t.free_head hbs (hall u hum)
      (slab_ranges_disjoint htok (hall u hum) (Ne.symm hub)
        (isBlock_inRange bs t t.free_head hbs hblk))
  refine ⟨hne, hres, ⟨?_, ?_, ?_, hperm.nodup_iff.mpr hnd, ?_⟩, hperm,
    by rw [hbase']; exact htok.1, hinr⟩
  · intro u hu
    rw [hsl2] at hu
    rcases List.mem_cons.mp hu with rfl | hu
    · exact hok'
    · exact hother u (List.mem_append.mp hu)
  · intro u hu
    have : u ∈ ys := by
      have h2 : (binActivate bin1 (Slab.allocate bs t).2).partSlabs = ys := by
        rw [binActivate]
        simpa using hdrop
      rwa [h2] at hu
    exact hpart u (by rw [hys]; exact List.mem_append.mpr (Or.inl this))
  · intro u hu
    have h2 : (binActivate bin1 (Slab.allocate bs t).2).fullSlabs = bin1.fullSlabs := rfl
    rw [h2] at hu
    exact hfull u hu
  · intro q hq
    rcases Finset.mem_insert.mp hq with rfl | hq
    · refine ⟨(Slab.allocate bs t).2.base, ?_, hinr⟩
      rw [hb2, hbase']
      simp
    · obtain ⟨b, hbm, hbr⟩ := hcov q hq
      exact ⟨b, hperm.mem_iff.mpr hbm, hbr⟩

/-- Installing a freshly carved slab over an unused chunk. -/
def binInstall (bin1 : Bin) (s' : SlabState) : Bin := { bin1 with current := some s' }

theorem BinOK_install_fresh (bs : Nat) (o : Finset Nat) (bin1 : Bin) (ch : Nat)
    (hbs : 0 < bs) (hbsC : bs ≤ kChunkSize) (hbin : BinOK bs o bin1)
    (hcur : bin1.current = none) (hpart0 : bin1.partSlabs = [])
    (hch : chunkOK ch) (hfresh : ch ∉ binBases bin1) :
    (Slab.allocate bs (Slab.init bs ch (fun _ => 0))).1 = some ch ∧
    BinOK bs (insert ch o)
      (binInstall bin1 (Slab.allocate bs (Slab.init bs ch (fun _ => 0))).2) ∧
    binBases (binInstall bin1 (Slab.allocate bs (Slab.init bs ch (fun _ => 0))).2) =
      ch :: binBases bin1 ∧
    chunkOK (Slab.allocate bs (Slab.init bs ch (fun _ => 0))).2.base ∧
    inRange (Slab.allocate bs (Slab.init bs ch (fun _ => 0))).2 ch := by
  obtain ⟨hall, hpart, hfull, hnd, hcov⟩ := hbin
  -- outstanding pointers live in existing slabs, which are disjoint from ch
  have havoid : ∀ p ∈ o, ¬ (ch ≤ p ∧ p < ch + kChunkSize) := by
    intro p hp hr
    obtain ⟨b, hbm, hbr⟩ := hcov p hp
    obtain ⟨u, hum, hub⟩ := List.mem_map.mp hbm
    have hbne : b ≠ ch := by
      intro he
      exact hfresh (he ▸ hbm)
    have hbal : b % kChunkSize = 0 := by
      rw [← hub]
      exact (hall u hum).1.2.1
    exact ranges_disjoint b ch p hbal hch.2.1 hbne hbr hr
  obtain ⟨hini, hfh, hbase0⟩ := SlabOK_init bs ch o hbs hbsC hch havoid
  have hne : (Slab.init bs ch (fun _ => 0)).free_head ≠ 0 := by
    rw [hfh]; exact hch.1
  obtain ⟨hres, hblk, hpo, hok', hbase', hcnt'⟩ :=
    SlabOK_allocate bs o (Slab.init bs ch (fun _ => 0)) hbs hini hne
  rw [hfh] at hres hblk hpo hok'
  have hbase2 : (Slab.allocate bs (Slab.init bs ch (fun _ => 0))).2.base = ch := by
    rw [hbase', hbase0]
  have hsl1 : binSlabs bin1 = bin1.fullSlabs := by
    simp [binSlabs, hcur, hpart0]
  have hsl2 : binSlabs (binInstall bin1 (Slab.allocate bs (Slab.init bs ch (fun _ => 0))).2) =
      (Slab.allocate bs (Slab.init bs ch (fun _ => 0))).2 :: bin1.fullSlabs := by
    simp [binSlabs, binInstall, hpart0]
  have hbb : binBases (binInstall bin1 (Slab.allocate bs (Slab.init bs ch (fun _ => 0))).2) =
      ch :: binBases bin1 := by
    rw [binBases, hsl2, binBases, hsl1]
    simp [hbase2]
  have hinr : inRange (Slab.allocate bs (Slab.init bs ch (fun _ => 0))).2 ch := by
    rw [inRange, hbase']
    exact isBlock_inRange bs _ ch hbs hblk
  refine ⟨hres, ⟨?_, ?_, ?_, ?_, ?_⟩, hbb, by rw [hbase2]; exact hch, hinr⟩
  · intro u hu
    rw [hsl2] at hu
    rcases List.mem_cons.mp hu with rfl | hu
    · exact hok'
    · refine SlabOK_insert_out bs o u ch hbs (hall u (by rw [hsl1]; exact hu)) ?_
      intro hr
      have hub : u.base ≠ ch := by
        intro he
        refine hfresh ?_
        rw [← he, binBases, hsl1]
        exact List.mem_map.mpr ⟨u, hu, rfl⟩
      have hual : u.base % kChunkSize = 0 := (hall u (by rw [hsl1]; exact hu)).1.2.1
      refine ranges_disjoint u.base ch ch hual hch.2.1 hub hr ⟨le_refl ch, ?_⟩
      have hk : (0 : Nat) < kChunkSize := by rw [kChunkSize]; norm_num
      omega
  · intro u hu
    have h2 : (binInstall bin1 (Slab.allocate bs (Slab.init bs ch (fun _ => 0))).2).partSlabs =
        bin1.partSlabs := rfl
    rw [h2, hpart0] at hu
    exact absurd hu (List.not_mem_nil u)
  · intro u hu
    exact hfull u hu
  · rw [hbb]
    exact List.nodup_cons.mpr ⟨hfresh, hnd⟩
  · intro q hq
    rcases Finset.mem_insert.mp hq with he | hq
    · subst he
      refine ⟨(Slab.allocate bs (Slab.init bs q (fun _ => 0))).2.base, ?_, hinr⟩
      rw [hbb, hbase2]
      simp
    · obtain ⟨b, hbm, hbr⟩ := hcov q hq
      refine ⟨b, ?_, hbr⟩
      rw [hbb]
      exact List.mem_cons_of_mem _ hbm

/-- Rebuilding the arena invariant after one bin of the arena is replaced by
a bin whose bases are a permutation of (or a fresh chunk added to) the old
ones, with the class's outstanding set possibly extended. -/
theorem ArenaInv_update (a : ArenaState) (e e' : Env) (outS : Nat → Finset Nat)
    (c : Nat) (hc : c < 24) (bin' : Bin) (o' : Finset Nat)
    (hbin' : BinOK (bsOf c) o' bin')
    (hbins : ∀ c', c' < 24 → BinOK (bsOf c') (outS c') (a.bins c'))
    (henv' : EnvOK { a with bins := Function.update a.bins c bin' } e') :
    ArenaInv { a with bins := Function.update a.bins c bin' } e'
      (Function.update outS c o') := by
  refine ⟨?_, henv'⟩
  intro c' hc'
  by_cases hcc : c' = c
  · subst hcc
    simp only [Function.update_same]
    exact hbin'
  · simp only [Function.update_noteq hcc]
    exact hbins c' hc'

/-- One slab-regime allocation preserves the arena invariant, and a
successful allocation leaves an active slab whose range holds the returned
pointer. -/
theorem allocate_step (a : ArenaState) (e : Env) (outS : Nat → Finset Nat) (n : Nat)
    (hinv : ArenaInv a e outS) (hn : SizeClass.is_large n = false) :
    ArenaInv (ArenaState.allocate a e n).2.1 (ArenaState.allocate a e n).2.2
      (match (ArenaState.allocate a e n).1 with
       | some p => Function.update outS (SizeClass.index n)
           (insert p (outS (SizeClass.index n)))
       | none => outS) ∧
    (∀ p, (ArenaState.allocate a e n).1 = some p →
      ∃ s, ((ArenaState.allocate a e n).2.1.bins (SizeClass.index n)).current = some s ∧
        chunkOK s.base ∧ inRange s p) := by
  have hn' : ¬ (SizeClass.is_large n = true) := by rw [hn]; exact Bool.false_ne_true
  have hc : SizeClass.index n < 24 := index_lt_24 n hn
  have hbsb := bsOf_bounds (SizeClass.index n) hc
  have hbs0 : 0 < bsOf (SizeClass.index n) := by omega
  obtain ⟨hbins, henv⟩ := hinv
  have hbinc := hbins (SizeClass.index n) hc
  by_cases hfast : ∃ s, (a.bins (SizeClass.index n)).current = some s ∧ s.free_head ≠ 0
  · -- fast path
    obtain ⟨s, hcur, hne⟩ := hfast
    obtain ⟨hres, hbok, hbases, hck, hinr⟩ :=
      BinOK_fast_alloc (bsOf (SizeClass.index n)) (outS (SizeClass.index n))
        (a.bins (SizeClass.index n)) s hbs0 hbinc hcur hne
    have halloc : ArenaState.allocate a e n =
        (some s.free_head, { a with bins := Function.update a.bins (SizeClass.index n) ({ a.bins (SizeClass.index n) with current := some (Slab.allocate (bsOf (SizeClass.index n)) s).2 }) }, e) := by
      rw [ArenaState.allocate, if_neg hn']
      simp only [hcur, hres]
    rw [halloc]
    dsimp only
    constructor
    · refine ArenaInv_update a e e outS (SizeClass.index n) hc _ _ hbok hbins ?_
      obtain ⟨sl, hch, hndsl, hcond⟩ := henv
      refine ⟨sl, hch, hndsl, ?_⟩
      intro ch hchm
      obtain ⟨hcko, hnb⟩ := hcond ch hchm
      refine ⟨hcko, ?_⟩
      intro c' hc'
      by_cases hcc : c' = SizeClass.index n
      · subst hcc
        simp only [Function.update_same]
        rw [hbases]
        exact hnb _ hc'
      · simp only [Function.update_noteq hcc]
        exact hnb _ hc'
    · intro p hp
      have hps : p = s.free_head := by
        simpa using hp.symm
      subst hps
      refine ⟨(Slab.allocate (bsOf (SizeClass.index n)) s).2, ?_, hck, hinr⟩
      simp [Function.update_same]
  · -- slow path: either no current slab, or the current slab is drained
    have hcur0 : ∀ s, (a.bins (SizeClass.index n)).current = some s → s.free_head = 0 := by
      intro s hs
      by_contra hneq
      exact hfast ⟨s, hs, hneq⟩
    obtain ⟨hbin1, hperm1, hcur1, hpart1⟩ :=
      BinOK_move_full (bsOf (SizeClass.index n)) (outS (SizeClass.index n))
        (a.bins (SizeClass.index n)) hbinc hcur0
    have hfail : ∀ s, (a.bins (SizeClass.index n)).current = some s →
        Slab.allocate (bsOf (SizeClass.index n)) s = (none, s) := by
      intro s hs
      rw [Slab.allocate, if_pos (hcur0 s hs)]
    have halloc : ArenaState.allocate a e n =
        ((allocateSlow (SizeClass.index n) (a.bins (SizeClass.index n)) e).1,
         { a with bins := Function.update a.bins (SizeClass.index n) (allocateSlow (SizeClass.index n) (a.bins (SizeClass.index n)) e).2.1 },
         (allocateSlow (SizeClass.index n) (a.bins (SizeClass.index n)) e).2.2) := by
      rw [ArenaState.allocate, if_neg hn']
      rcases hcur : (a.bins (SizeClass.index n)).current with _ | s
      · simp only [hcur]
      · simp only [hcur, hfail s hcur]
    rw [halloc]
    simp only
    rcases hlast : (binToFull (a.bins (SizeClass.index n))).partSlabs.getLast? with _ | t
    · -- no partial slab: request a chunk
      have hpart_nil : (binToFull (a.bins (SizeClass.index n))).partSlabs = [] := by
        rwa [List.getLast?_eq_none_iff] at hlast
      obtain ⟨sl, hch, hndsl, hcond⟩ := henv
      rcases requestChunk_cases e sl hch with ⟨hsl0, hos0, hreq⟩ |
        ⟨ch, sl', hslc, hreq, hch'⟩ | ⟨ch, rest, hsl0, hosc, hreq⟩
      · -- out of memory: nothing changes but the bin shape
        have hslow : allocateSlow (SizeClass.index n) (a.bins (SizeClass.index n)) e =
            (none, binToFull (a.bins (SizeClass.index n)), e) := by
          rw [allocateSlow]
          simp only [hlast, hreq]
        rw [hslow]
        simp only
        refine ⟨?_, by intro p hp; exact absurd hp (by simp)⟩
        have hupd : Function.update outS (SizeClass.index n) (outS (SizeClass.index n)) =
            outS := Function.update_eq_self _ _
        rw [← hupd]
        refine ArenaInv_update a e e outS (SizeClass.index n) hc _ _ hbin1 hbins ?_
        refine ⟨sl, hch, hndsl, ?_⟩
        intro x hxm
        obtain ⟨hcko, hnb⟩ := hcond x hxm
        refine ⟨hcko, ?_⟩
        intro c' hc'
        by_cases hcc : c' = SizeClass.index n
        · subst hcc
          simp only [Function.update_same]
          intro hmem
          exact hnb _ hc' (hperm1.mem_iff.mp hmem)
        · simp only [Function.update_noteq hcc]
          exact hnb _ hc'
      · -- fresh chunk popped from the global stack
        have hm : ch ∈ sl ++ e.osSupply := by rw [hslc]; simp
        obtain ⟨hcko, hnb⟩ := hcond ch hm
        have hfresh : ch ∉ binBases (binToFull (a.bins (SizeClass.index n))) := by
          intro hmem
          exact hnb _ hc (hperm1.mem_iff.mp hmem)
        obtain ⟨hres2, hbok2, hbases2, hck2, hinr2⟩ :=
          BinOK_install_fresh (bsOf (SizeClass.index n)) (outS (SizeClass.index n))
            (binToFull (a.bins (SizeClass.index n))) ch hbs0 (by omega) hbin1 hcur1
            hpart_nil hcko hfresh
        have hslow : allocateSlow (SizeClass.index n) (a.bins (SizeClass.index n)) e =
            (some ch,
             binInstall (binToFull (a.bins (SizeClass.index n)))
               (Slab.allocate (bsOf (SizeClass.index n))
                 (Slab.init (bsOf (SizeClass.index n)) ch (fun _ => 0))).2,
             { e with stack := { headPtr := e.stack.smem ch, tag := inc64 e.stack.tag,
                                 smem := e.stack.smem } }) := by
          rw [allocateSlow]
          simp only [hlast, hreq, hres2]
          rfl
        rw [hslow]
        simp only
        constructor
        · refine ArenaInv_update a e _ outS (SizeClass.index n) hc _ _ hbok2 hbins ?_
          refine ⟨sl', hch', ?_, ?_⟩
          · have : (sl ++ e.osSupply).Nodup := hndsl
            rw [hslc] at this
            exact (List.nodup_cons.mp this).2
          · intro x hxm
            have hx2 : x ∈ sl ++ e.osSupply := by
              rw [hslc]
              simpa using Or.inr hxm
            obtain ⟨hcko2, hnb2⟩ := hcond x hx2
            refine ⟨hcko2, ?_⟩
            intro c' hc'
            by_cases hcc : c' = SizeClass.index n
            · subst hcc
              simp only [Function.update_same]
              rw [hbases2]
              intro hmem
              rcases List.mem_cons.mp hmem with rfl | hmem
              · have : (sl ++ e.osSupply).Nodup := hndsl
                rw [hslc] at this
                exact (List.nodup_cons.mp this).1 hxm
              · exact hnb2 _ hc' (hperm1.mem_iff.mp hmem)
            · simp only [Function.update_noteq hcc]
              exact hnb2 _ hc'
        · intro p hp
          have hpc : p = ch := by simpa using hp.symm
          subst hpc
          refine ⟨_, ?_, hck2, hinr2⟩
          simp only [Function.update_same]
          rfl
      · -- fresh chunk mapped from the OS
        have hm : ch ∈ sl ++ e.osSupply := by
          rw [hsl0, hosc]
          simp
        obtain ⟨hcko, hnb⟩ := hcond ch hm
        have hfresh : ch ∉ binBases (binToFull (a.bins (SizeClass.index n))) := by
          intro hmem
          exact hnb _ hc (hperm1.mem_iff.mp hmem)
        obtain ⟨hres2, hbok2, hbases2, hck2, hinr2⟩ :=
          BinOK_install_fresh (bsOf (SizeClass.index n)) (outS (SizeClass.index n))
            (binToFull (a.bins (SizeClass.index n))) ch hbs0 (by omega) hbin1 hcur1
            hpart_nil hcko hfresh
        have hslow : allocateSlow (SizeClass.index n) (a.bins (SizeClass.index n)) e =
            (some ch,
             binInstall (binToFull (a.bins (SizeClass.index n)))
               (Slab.allocate (bsOf (SizeClass.index n))
                 (Slab.init (bsOf (SizeClass.index n)) ch (fun _ => 0))).2,
             { e with osSupply := rest }) := by
          rw [allocateSlow]
          simp only [hlast, hreq, hres2]
          rfl
        rw [hslow]
        simp only
        constructor
        · refine ArenaInv_update a e _ outS (SizeClass.index n) hc _ _ hbok2 hbins ?_
          subst hsl0
          have hnd2 : (ch :: rest).Nodup := by
            have := hndsl
            rw [hosc] at this
            simpa using this
          refine ⟨[], hch, ?_, ?_⟩
          · simpa using hnd2.of_cons
          · intro x hxm
            simp only [List.nil_append] at hxm
            have hx2 : x ∈ ([] : List Nat) ++ e.osSupply := by
              rw [hosc]
              exact List.mem_cons_of_mem _ hxm
            obtain ⟨hcko2, hnb2⟩ := hcond x hx2
            refine ⟨hcko2, ?_⟩
            intro c' hc'
            by_cases hcc : c' = SizeClass.index n
            · subst hcc
              simp only [Function.update_same]
              rw [hbases2]
              intro hmem
              rcases List.mem_cons.mp hmem with he | hmem2
              · exact (List.nodup_cons.mp hnd2).1 (he ▸ hxm)
              · exact hnb2 _ hc' (hperm1.mem_iff.mp hmem2)
            · simp only [Function.update_noteq hcc]
              exact hnb2 _ hc'
        · intro p hp
          have hpc : p = ch := by simpa using hp.symm
          subst hpc
          refine ⟨_, ?_, hck2, hinr2⟩
          simp only [Function.update_same]
          rfl
    · -- activate the most recent partial slab
      obtain ⟨hne2, hres2, hbok2, hperm2, hck2, hinr2⟩ :=
        BinOK_activate_last (bsOf (SizeClass.index n)) (outS (SizeClass.index n))
          (binToFull (a.bins (SizeClass.index n))) t hbs0 hbin1 hcur1 hlast
      have hslow : allocateSlow (SizeClass.index n) (a.bins (SizeClass.index n)) e =
          (some t.free_head,
           binActivate (binToFull (a.bins (SizeClass.index n)))
             (Slab.allocate (bsOf (SizeClass.index n)) t).2, e) := by
        rw [allocateSlow]
        simp only [hlast, hres2]
        rfl
      rw [hslow]
      simp only
      constructor
      · refine ArenaInv_update a e e outS (SizeClass.index n) hc _ _ hbok2 hbins ?_
        obtain ⟨sl, hch, hndsl, hcond⟩ := henv
        refine ⟨sl, hch, hndsl, ?_⟩
        intro x hxm
        obtain ⟨hcko, hnb⟩ := hcond x hxm
        refine ⟨hcko, ?_⟩
        intro c' hc'
        by_cases hcc : c' = SizeClass.index n
        · subst hcc
          simp only [Function.update_same]
          intro hmem
          exact hnb _ hc' (hperm1.mem_iff.mp (hperm2.mem_iff.mp hmem))
        · simp only [Function.update_noteq hcc]
          exact hnb _ hc'
      · intro p hp
        have hpt : p = t.free_head := by simpa using hp.symm
        subst hpt
        refine ⟨_, ?_, hck2, hinr2⟩
        simp only [Function.update_same]
        rfl

/-! ### Arena-level deallocation preserves the invariant -/

theorem mem_binSlabs_iff (bin : Bin) (u : SlabState) :
    u ∈ binSlabs bin ↔ bin.current = some u ∨ u ∈ bin.partSlabs ∨ u ∈ bin.fullSlabs := by
  rcases hc : bin.current with _ | s
  · simp [binSlabs, hc]
  · simp only [binSlabs, hc, List.singleton_append, List.mem_cons, List.mem_append,
      Option.some.injEq]
    constructor
    · rintro ((rfl | h) | h)
      · exact Or.inl rfl
      · exact Or.inr (Or.inl h)
      · exact Or.inr (Or.inr h)
    · rintro (rfl | h | h)
      · exact Or.inl (Or.inl rfl)
      · exact Or.inl (Or.inr h)
      · exact Or.inr h

theorem deallocPartial_found (bs : Nat) :
    ∀ (l : List SlabState) (sb p : Nat), (∃ s ∈ l, s.base = sb) →
      ∃ l1 s l2, l = l1 ++ s :: l2 ∧ s.base = sb ∧
        deallocPartial bs l sb p = some (l1 ++ Slab.deallocate bs s p :: l2) := by
  intro l
  induction l with
  | nil => intro sb p h; simp at h
  | cons t rest ih =>
    intro sb p h
    by_cases ht : t.base = sb
    · exact ⟨[], t, rest, rfl, ht, by rw [deallocPartial, if_pos ht]; rfl⟩
    · obtain ⟨s, hs, hsb⟩ := h
      rcases List.mem_cons.mp hs with he | hs'
      · exact absurd (he ▸ hsb) ht
      · obtain ⟨l1, s', l2, hl, hsb', hres⟩ := ih sb p ⟨s, hs', hsb⟩
        refine ⟨t :: l1, s', l2, by rw [hl]; rfl, hsb', ?_⟩
        rw [deallocPartial, if_neg ht, hres]
        rfl

theorem extractFull_found :
    ∀ (l : List SlabState) (sb : Nat), (∃ s ∈ l, s.base = sb) →
      ∃ l1 s l2, l = l1 ++ s :: l2 ∧ s.base = sb ∧
        extractFull l sb = some (s, l1 ++ l2) := by
  intro l
  induction l with
  | nil => intro sb h; simp at h
  | cons t rest ih =>
    intro sb h
    by_cases ht : t.base = sb
    · exact ⟨[], t, rest, rfl, ht, by rw [extractFull, if_pos ht]; rfl⟩
    · obtain ⟨s, hs, hsb⟩ := h
      rcases List.mem_cons.mp hs with he | hs'
      · exact absurd (he ▸ hsb) ht
      · obtain ⟨l1, s', l2, hl, hsb', hres⟩ := ih sb ⟨s, hs', hsb⟩
        refine ⟨t :: l1, s', l2, by rw [hl]; rfl, hsb', ?_⟩
        rw [extractFull, if_neg ht, hres]
        rfl

/-- Replacing the partial list after an in-place deallocation. -/
def binDP (bin : Bin) (l : List SlabState) : Bin := { bin with partSlabs := l }

/-- Moving a formerly full slab back onto the partial list. -/
def binDF (bin : Bin) (d : SlabState) (rest : List SlabState) : Bin :=
  { bin with partSlabs := bin.partSlabs ++ [d], fullSlabs := rest }

/-- Deallocating into the active slab in place. -/
def binDC (bin : Bin) (d : SlabState) : Bin := { bin with current := some d }

theorem deallocateSlow_part (bs : Nat) (bin : Bin) (sb p : Nat) (l : List SlabState)
    (h : deallocPartial bs bin.partSlabs sb p = some l) :
    deallocateSlow bs bin sb p = binDP bin l := by
  rw [deallocateSlow, h]
  rfl

theorem deallocateSlow_full (bs : Nat) (bin : Bin) (sb p : Nat) (s : SlabState)
    (rest : List SlabState)
    (h1 : deallocPartial bs bin.partSlabs sb p = none)
    (h2 : extractFull bin.fullSlabs sb = some (s, rest)) :
    deallocateSlow bs bin sb p = binDF bin (Slab.deallocate bs s p) rest := by
  rw [deallocateSlow, h1, h2]
  rfl

theorem EnvOK_update_subset (a : ArenaState) (e : Env) (c : Nat) (bin' : Bin)
    (hsub : ∀ b, b ∈ binBases bin' → b ∈ binBases (a.bins c))
    (henv : EnvOK a e) :
    EnvOK { a with bins := Function.update a.bins c bin' } e := by
  obtain ⟨sl, hch, hnd, hcond⟩ := henv
  refine ⟨sl, hch, hnd, ?_⟩
  intro ch hm
  obtain ⟨hcko, hnb⟩ := hcond ch hm
  refine ⟨hcko, ?_⟩
  intro c' hc'
  by_cases hcc : c' = c
  · subst hcc
    simp only [Function.update_same]
    exact fun hmem => hnb _ hc' (hsub _ hmem)
  · simp only [Function.update_noteq hcc]
    exact hnb _ hc'

theorem BinOK_dealloc_current (bs : Nat) (o : Finset Nat) (bin : Bin) (s : SlabState)
    (p : Nat) (hbs : 0 < bs) (hbin : BinOK bs o bin) (hcur : bin.current = some s)
    (hp : p ∈ o) (hin : inRange s p) :
    BinOK bs (o.erase p) (binDC bin (Slab.deallocate bs s p)) ∧
    binBases (binDC bin (Slab.deallocate bs s p)) = binBases bin := by
  obtain ⟨hall, hpart, hfull, hnd, hcov⟩ := hbin
  have hsok := hall s (mem_binSlabs_current hcur)
  obtain ⟨hok', hfh', hbase', hp0, hcnt'⟩ := SlabOK_deallocate bs o s p hbs hsok hp hin
  have hbases : binBases (binDC bin (Slab.deallocate bs s p)) = binBases bin := by
    simp [binBases, binSlabs, binDC, hcur, hbase']
  refine ⟨⟨?_, hpart, hfull, by rw [hbases]; exact hnd, ?_⟩, hbases⟩
  · intro u hu
    rcases (mem_binSlabs_iff _ u).mp hu with hcu | hu2 | hu2
    · have he : Slab.deallocate bs s p = u := by
        have : some (Slab.deallocate bs s p) = some u := hcu
        exact Option.some_inj.mp this
      rw [← he]
      exact hok'
    · exact SlabOK_subset bs o (o.erase p) u (Finset.erase_subset _ _)
        (hall u (mem_binSlabs_part hu2))
    · exact SlabOK_subset bs o (o.erase p) u (Finset.erase_subset _ _)
        (hall u (mem_binSlabs_full hu2))
  · intro q hq
    obtain ⟨b, hbm, hbr⟩ := hcov q (Finset.mem_of_mem_erase hq)
    exact ⟨b, by rw [hbases]; exact hbm, hbr⟩

theorem BinOK_dealloc_part (bs : Nat) (o : Finset Nat) (bin : Bin)
    (l1 l2 : List SlabState) (s : SlabState) (p : Nat) (hbs : 0 < bs)
    (hbin : BinOK bs o bin) (hl : bin.partSlabs = l1 ++ s :: l2)
    (hp : p ∈ o) (hin : inRange s p) :
    BinOK bs (o.erase p) (binDP bin (l1 ++ Slab.deallocate bs s p :: l2)) ∧
    binBases (binDP bin (l1 ++ Slab.deallocate bs s p :: l2)) = binBases bin := by
  obtain ⟨hall, hpart, hfull, hnd, hcov⟩ := hbin
  have hsm : s ∈ binSlabs bin := mem_binSlabs_part (by rw [hl]; simp)
  have hsok := hall s hsm
  obtain ⟨hok', hfh', hbase', hp0, hcnt'⟩ := SlabOK_deallocate bs o s p hbs hsok hp hin
  have hbases : binBases (binDP bin (l1 ++ Slab.deallocate bs s p :: l2)) =
      binBases bin := by
    simp [binBases, binSlabs, binDP, hl, hbase']
  refine ⟨⟨?_, ?_, hfull, by rw [hbases]; exact hnd, ?_⟩, hbases⟩
  · intro u hu
    rcases (mem_binSlabs_iff _ u).mp hu with hcu | hu2 | hu2
    · exact SlabOK_subset bs o (o.erase p) u (Finset.erase_subset _ _)
        (hall u ((mem_binSlabs_iff bin u).mpr (Or.inl hcu)))
    · have hu3 : u ∈ l1 ++ Slab.deallocate bs s p :: l2 := hu2
      rcases List.mem_append.mp hu3 with h | h
      · exact SlabOK_subset bs o (o.erase p) u (Finset.erase_subset _ _)
          (hall u (mem_binSlabs_part (by rw [hl]; exact List.mem_append.mpr (Or.inl h))))
      · rcases List.mem_cons.mp h with he | h2
        · rw [he]
          exact hok'
        · exact SlabOK_subset bs o (o.erase p) u (Finset.erase_subset _ _)
            (hall u (mem_binSlabs_part (by rw [hl]; simp [h2])))
    · exact SlabOK_subset bs o (o.erase p) u (Finset.erase_subset _ _)
        (hall u (mem_binSlabs_full hu2))
  · intro u hu
    have hu3 : u ∈ l1 ++ Slab.deallocate bs s p :: l2 := hu
    rcases List.mem_append.mp hu3 with h | h
    · exact hpart u (by rw [hl]; exact List.mem_append.mpr (Or.inl h))
    · rcases List.mem_cons.mp h with he | h2
      · rw [he, hfh']
        exact hp0
      · exact hpart u (by rw [hl]; simp [h2])
  · intro q hq
    obtain ⟨b, hbm, hbr⟩ := hcov q (Finset.mem_of_mem_erase hq)
    exact ⟨b, by rw [hbases]; exact hbm, hbr⟩

theorem BinOK_dealloc_full (bs : Nat) (o : Finset Nat) (bin : Bin)
    (l1 l2 : List SlabState) (s : SlabState) (p : Nat) (hbs : 0 < bs)
    (hbin : BinOK bs o bin) (hl : bin.fullSlabs = l1 ++ s :: l2)
    (hp : p ∈ o) (hin : inRange s p) :
    BinOK bs (o.erase p) (binDF bin (Slab.deallocate bs s p) (l1 ++ l2)) ∧
    List.Perm (binBases (binDF bin (Slab.deallocate bs s p) (l1 ++ l2)))
      (binBases bin) := by
  obtain ⟨hall, hpart, hfull, hnd, hcov⟩ := hbin
  have hsm : s ∈ binSlabs bin := mem_binSlabs_full (by rw [hl]; simp)
  have hsok := hall s hsm
  obtain ⟨hok', hfh', hbase', hp0, hcnt'⟩ := SlabOK_deallocate bs o s p hbs hsok hp hin
  have hp1 : List.Perm ((bin.partSlabs ++ [Slab.deallocate bs s p]) ++ (l1 ++ l2))
      (bin.partSlabs ++ (l1 ++ Slab.deallocate bs s p :: l2)) := by
    rw [List.append_assoc]
    exact List.Perm.append_left bin.partSlabs
      (@List.perm_middle _ (Slab.deallocate bs s p) l1 l2).symm
  have he1 : binSlabs (binDF bin (Slab.deallocate bs s p) (l1 ++ l2)) =
      (match bin.current with | some u => [u] | none => []) ++
        ((bin.partSlabs ++ [Slab.deallocate bs s p]) ++ (l1 ++ l2)) := by
    rw [binSlabs]
    simp [binDF, List.append_assoc]
  have hp2 : List.Perm (binSlabs (binDF bin (Slab.deallocate bs s p) (l1 ++ l2)))
      ((match bin.current with | some u => [u] | none => []) ++
        (bin.partSlabs ++ (l1 ++ Slab.deallocate bs s p :: l2))) := by
    rw [he1]
    exact List.Perm.append_left _ hp1
  have he2 : (((match bin.current with | some u => [u] | none => []) ++
      (bin.partSlabs ++ (l1 ++ Slab.deallocate bs s p :: l2))).map SlabState.base) =
      binBases bin := by
    rw [binBases, binSlabs, hl]
    simp [hbase', List.append_assoc]
  have hperm : List.Perm (binBases (binDF bin (Slab.deallocate bs s p) (l1 ++ l2)))
      (binBases bin) := by
    have h3 := hp2.map SlabState.base
    rw [he2] at h3
    exact h3
  refine ⟨⟨?_, ?_, ?_, hperm.nodup_iff.mpr hnd, ?_⟩, hperm⟩
  · intro u hu
    rcases (mem_binSlabs_iff _ u).mp hu with hcu | hu2 | hu2
    · exact SlabOK_subset bs o (o.erase p) u (Finset.erase_subset _ _)
        (hall u ((mem_binSlabs_iff bin u).mpr (Or.inl hcu)))
    · have hu3 : u ∈ bin.partSlabs ++ [Slab.deallocate bs s p] := hu2
      rcases List.mem_append.mp hu3 with h | h
      · exact SlabOK_subset bs o (o.erase p) u (Finset.erase_subset _ _)
          (hall u (mem_binSlabs_part h))
      · rw [List.mem_singleton.mp h]
        exact hok'
    · have hu3 : u ∈ l1 ++ l2 := hu2
      have hmf : u ∈ bin.fullSlabs := by
        rw [hl]
        rcases List.mem_append.mp hu3 with h | h
        · exact List.mem_append.mpr (Or.inl h)
        · simp [h]
      exact SlabOK_subset bs o (o.erase p) u (Finset.erase_subset _ _)
        (hall u (mem_binSlabs_full hmf))
  · intro u hu
    have hu3 : u ∈ bin.partSlabs ++ [Slab.deallocate bs s p] := hu
    rcases List.mem_append.mp hu3 with h | h
    · exact hpart u h
    · rw [List.mem_singleton.mp h, hfh']
      exact hp0
  · intro u hu
    have hu3 : u ∈ l1 ++ l2 := hu
    have hmf : u ∈ bin.fullSlabs := by
      rw [hl]
      rcases List.mem_append.mp hu3 with h | h
      · exact List.mem_append.mpr (Or.inl h)
      · simp [h]
    exact hfull u hmf
  · intro q hq
    obtain ⟨b, hbm, hbr⟩ := hcov q (Finset.mem_of_mem_erase hq)
    exact ⟨b, hperm.mem_iff.mpr hbm, hbr⟩

/-- The cold deallocation path on a bin that caches the slab of `p`. -/
theorem BinOK_dealloc_slow (bs : Nat) (o : Finset Nat) (bin : Bin) (s0 : SlabState)
    (p : Nat) (hbs : 0 < bs) (hbin : BinOK bs o bin)
    (hs0 : s0 ∈ bin.partSlabs ∨ s0 ∈ bin.fullSlabs)
    (hp : p ∈ o) (hbr : inRangeB s0.base p) :
    BinOK bs (o.erase p) (deallocateSlow bs bin s0.base p) ∧
    ∀ b ∈ binBases (deallocateSlow bs bin s0.base p), b ∈ binBases bin := by
  by_cases hex : ∃ t ∈ bin.partSlabs, t.base = s0.base
  · obtain ⟨l1, t, l2, hl, htb, hres⟩ := deallocPartial_found bs bin.partSlabs s0.base p hex
    have hin : inRange t p := by
      show inRangeB t.base p
      rw [htb]
      exact hbr
    obtain ⟨hbok, hbases⟩ := BinOK_dealloc_part bs o bin l1 l2 t p hbs hbin hl hp hin
    rw [deallocateSlow_part bs bin s0.base p _ hres]
    exact ⟨hbok, fun b hb => by rw [hbases] at hb; exact hb⟩
  · push_neg at hex
    have hnone := deallocPartial_none bs bin.partSlabs s0.base p hex
    have hs0f : s0 ∈ bin.fullSlabs := by
      rcases hs0 with h | h
      · exact absurd rfl (hex s0 h)
      · exact h
    obtain ⟨l1, t, l2, hl, htb, hres⟩ := extractFull_found bin.fullSlabs s0.base
      ⟨s0, hs0f, rfl⟩
    have hin : inRange t p := by
      show inRangeB t.base p
      rw [htb]
      exact hbr
    obtain ⟨hbok, hperm⟩ := BinOK_dealloc_full bs o bin l1 l2 t p hbs hbin hl hp hin
    rw [deallocateSlow_full bs bin s0.base p t (l1 ++ l2) hnone hres]
    exact ⟨hbok, fun b hb => hperm.mem_iff.mp hb⟩

/-- One slab-regime deallocation of an outstanding pointer preserves the
arena invariant, removing the pointer from the class's outstanding set. -/
theorem deallocate_step (a : ArenaState) (e : Env) (outS : Nat → Finset Nat)
    (p n : Nat) (hinv : ArenaInv a e outS) (hn : SizeClass.is_large n = false)
    (hp : p ∈ outS (SizeClass.index n)) :
    ArenaInv (ArenaState.deallocate a e p n).1 (ArenaState.deallocate a e p n).2
      (Function.update outS (SizeClass.index n) ((outS (SizeClass.index n)).erase p)) := by
  have hn' : ¬ (SizeClass.is_large n = true) := by rw [hn]; exact Bool.false_ne_true
  have hc : SizeClass.index n < 24 := index_lt_24 n hn
  have hbsb := bsOf_bounds (SizeClass.index n) hc
  have hbs0 : 0 < bsOf (SizeClass.index n) := by omega
  obtain ⟨hbins, henv⟩ := hinv
  have hbinc := hbins (SizeClass.index n) hc
  obtain ⟨b, hbm, hbr⟩ := hbinc.2.2.2.2 p hp
  obtain ⟨s0, hs0m, hs0b⟩ := List.mem_map.mp hbm
  subst hs0b
  have hs0ok := hbinc.1 s0 hs0m
  obtain ⟨hbr1, hbr2⟩ := hbr
  have hpne : p ≠ 0 := by
    have h0 : s0.base ≠ 0 := hs0ok.1.1
    omega
  have hsb : slab_base_from_ptr p = s0.base :=
    slab_base_from_ptr_eq s0.base p hs0ok.1.2.1 hbr1 hbr2
      (by have := hs0ok.1.2.2; omega)
  rcases hcur : (a.bins (SizeClass.index n)).current with _ | s
  · -- no active slab: cold path
    have hd : ArenaState.deallocate a e p n =
        ({ a with bins := Function.update a.bins (SizeClass.index n) (deallocateSlow (bsOf (SizeClass.index n)) (a.bins (SizeClass.index n)) (slab_base_from_ptr p) p) }, e) := by
      rw [ArenaState.deallocate, if_neg hpne, if_neg hn']
      simp only [hcur]
    rw [hsb] at hd
    have hs0pf : s0 ∈ (a.bins (SizeClass.index n)).partSlabs ∨
        s0 ∈ (a.bins (SizeClass.index n)).fullSlabs := by
      rcases (mem_binSlabs_iff _ s0).mp hs0m with hcu | h | h
      · rw [hcur] at hcu
        exact absurd hcu (by simp)
      · exact Or.inl h
      · exact Or.inr h
    obtain ⟨hbok, hsub⟩ := BinOK_dealloc_slow (bsOf (SizeClass.index n))
      (outS (SizeClass.index n)) (a.bins (SizeClass.index n)) s0 p hbs0 hbinc hs0pf hp
      ⟨hbr1, hbr2⟩
    rw [hd]
    dsimp only
    exact ArenaInv_update a e e outS (SizeClass.index n) hc _ _ hbok hbins
      (EnvOK_update_subset a e (SizeClass.index n) _ hsub henv)
  · by_cases hmatch : s.base = slab_base_from_ptr p
    · -- active slab holds the pointer
      have hd : ArenaState.deallocate a e p n =
          ({ a with bins := Function.update a.bins (SizeClass.index n) (binDC (a.bins (SizeClass.index n)) (Slab.deallocate (bsOf (SizeClass.index n)) s p)) }, e) := by
        rw [ArenaState.deallocate, if_neg hpne, if_neg hn']
        simp only [hcur, if_pos hmatch]
        rfl
      have hin : inRange s p := by
        show inRangeB s.base p
        rw [hmatch, hsb]
        exact ⟨hbr1, hbr2⟩
      obtain ⟨hbok, hbases⟩ := BinOK_dealloc_current (bsOf (SizeClass.index n))
        (outS (SizeClass.index n)) (a.bins (SizeClass.index n)) s p hbs0 hbinc hcur hp hin
      rw [hd]
      dsimp only
      exact ArenaInv_update a e e outS (SizeClass.index n) hc _ _ hbok hbins
        (EnvOK_update_subset a e (SizeClass.index n) _
          (fun b hb => by rw [hbases] at hb; exact hb) henv)
    · -- active slab does not match: cold path
      have hd : ArenaState.deallocate a e p n =
          ({ a with bins := Function.update a.bins (SizeClass.index n) (deallocateSlow (bsOf (SizeClass.index n)) (a.bins (SizeClass.index n)) (slab_base_from_ptr p) p) }, e) := by
        rw [ArenaState.deallocate, if_neg hpne, if_neg hn']
        simp only [hcur, if_neg hmatch]
      rw [hsb] at hd
      have hs0pf : s0 ∈ (a.bins (SizeClass.index n)).partSlabs ∨
          s0 ∈ (a.bins (SizeClass.index n)).fullSlabs := by
        rcases (mem_binSlabs_iff _ s0).mp hs0m with hcu | h | h
        · rw [hcur] at hcu
          have hss : s = s0 := Option.some_inj.mp hcu
          exact absurd (by rw [hss]; exact hsb.symm) hmatch
        · exact Or.inl h
        · exact Or.inr h
      obtain ⟨hbok, hsub⟩ := BinOK_dealloc_slow (bsOf (SizeClass.index n))
        (outS (SizeClass.index n)) (a.bins (SizeClass.index n)) s0 p hbs0 hbinc hs0pf hp
        ⟨hbr1, hbr2⟩
      rw [hd]
      dsimp only
      exact ArenaInv_update a e e outS (SizeClass.index n) hc _ _ hbok hbins
        (EnvOK_update_subset a e (SizeClass.index n) _ hsub henv)

/-! ### Client operation traces over one arena -/

/-- The fast path succeeds whenever the active slab has a nonzero head. -/
theorem allocate_fast_result (a : ArenaState) (e : Env) (n : Nat) (s : SlabState)
    (hn : SizeClass.is_large n = false)
    (hcur : (a.bins (SizeClass.index n)).current = some s) (hne : s.free_head ≠ 0) :
    (ArenaState.allocate a e n).1 = some s.free_head := by
  have hn' : ¬ (SizeClass.is_large n = true) := by rw [hn]; exact Bool.false_ne_true
  have hres : Slab.allocate (bsOf (SizeClass.index n)) s =
      (some s.free_head, { s with free_head := s.mem s.free_head, allocated_count := inc64 s.allocated_count, occupancy := s.occupancy.set (Slab.block_index (bsOf (SizeClass.index n)) s s.free_head) }) := by
    rw [Slab.allocate, if_neg hne]
  rw [ArenaState.allocate, if_neg hn']
  simp only [hcur, hres]

/-- A matching active slab takes the in-place deallocation path. -/
theorem deallocate_fast_eq (a : ArenaState) (e : Env) (p n : Nat) (s : SlabState)
    (hp0 : p ≠ 0) (hn : SizeClass.is_large n = false)
    (hcur : (a.bins (SizeClass.index n)).current = some s)
    (hmatch : s.base = slab_base_from_ptr p) :
    ArenaState.deallocate a e p n =
      ({ a with bins := Function.update a.bins (SizeClass.index n) (binDC (a.bins (SizeClass.index n)) (Slab.deallocate (bsOf (SizeClass.index n)) s p)) }, e) := by
  have hn' : ¬ (SizeClass.is_large n = true) := by rw [hn]; exact Bool.false_ne_true
  rw [ArenaState.deallocate, if_neg hp0, if_neg hn']
  simp only [hcur, if_pos hmatch]
  rfl

/-- One client call: `allocate(n)` or `deallocate(p, n)`. -/
inductive AOp where
  | alloc : Nat → AOp
  | dealloc : Nat → Nat → AOp

/-- The arena, its chunk environment, and the ghost sets of outstanding
slab-regime pointers per class. -/
structure World where
  arena : ArenaState
  env : Env
  outS : Nat → Finset Nat

def Wstep (w : World) : AOp → World
  | AOp.alloc n =>
    let r := ArenaState.allocate w.arena w.env n
    if SizeClass.is_large n then { w with arena := r.2.1, env := r.2.2 }
    else
      { arena := r.2.1, env := r.2.2,
        outS := match r.1 with
          | some p => Function.update w.outS (SizeClass.index n) (insert p (w.outS (SizeClass.index n)))
          | none => w.outS }
  | AOp.dealloc p n =>
    let r := ArenaState.deallocate w.arena w.env p n
    if SizeClass.is_large n then { w with arena := r.1, env := r.2 }
    else
      { arena := r.1, env := r.2,
        outS := Function.update w.outS (SizeClass.index n) ((w.outS (SizeClass.index n)).erase p) }

/-- A deallocation is valid when its pointer is null or still outstanding for
that size class (large frees are unconstrained here: they never touch the
bins). -/
def opValid (w : World) : AOp → Prop
  | AOp.alloc _ => True
  | AOp.dealloc p n =>
    SizeClass.is_large n = true ∨ p = 0 ∨ p ∈ w.outS (SizeClass.index n)

def Wvalid : World → List AOp → Prop
  | _, [] => True
  | w, op :: rest => opValid w op ∧ Wvalid (Wstep w op) rest

def Wrun (w : World) (ops : List AOp) : World := ops.foldl Wstep w

def WInv (w : World) : Prop := ArenaInv w.arena w.env w.outS

theorem EnvOK_same_sources (a : ArenaState) (e e' : Env)
    (hst : e'.stack = e.stack) (hos : e'.osSupply = e.osSupply)
    (henv : EnvOK a e) : EnvOK a e' := by
  obtain ⟨sl, hch, hnd, hcond⟩ := henv
  exact ⟨sl, by rw [hst]; exact hch, by rw [hos]; exact hnd, by rw [hos]; exact hcond⟩

theorem outS_zero_not_mem (a : ArenaState) (e : Env) (outS : Nat → Finset Nat)
    (hinv : ArenaInv a e outS) (c : Nat) (hc : c < 24) : 0 ∉ outS c := by
  intro h0
  obtain ⟨b, hbm, hbr⟩ := (hinv.bins_ok c hc).2.2.2.2 0 h0
  obtain ⟨s0, hs0m, hs0b⟩ := List.mem_map.mp hbm
  have hb0 : s0.base ≠ 0 := ((hinv.bins_ok c hc).1 s0 hs0m).1.1
  obtain ⟨h1, h2⟩ := hbr
  rw [← hs0b] at h1
  omega

/-- Every valid client call preserves the arena invariant. -/
theorem WInv_step (w : World) (op : AOp) (hw : WInv w) (hv : opValid w op) :
    WInv (Wstep w op) := by
  obtain ⟨hbins, henv⟩ := hw
  cases op with
  | alloc n =>
    by_cases hl : SizeClass.is_large n = true
    · have hws : Wstep w (AOp.alloc n) = { w with arena := (ArenaState.allocate w.arena w.env n).2.1, env := (ArenaState.allocate w.arena w.env n).2.2 } := by
        rw [Wstep, if_pos hl]
      have key : (ArenaState.allocate w.arena w.env n).2.1 = w.arena ∧
          (ArenaState.allocate w.arena w.env n).2.2.stack = w.env.stack ∧
          (ArenaState.allocate w.arena w.env n).2.2.osSupply = w.env.osSupply := by
        rw [ArenaState.allocate, if_pos hl, allocateLarge]
        rcases hos : w.env.osLarge with _ | ⟨q, rest⟩
        · simp [hos]
        · simp [hos]
      rw [hws]
      show ArenaInv (ArenaState.allocate w.arena w.env n).2.1
        (ArenaState.allocate w.arena w.env n).2.2 w.outS
      rw [key.1]
      exact ⟨hbins, EnvOK_same_sources w.arena w.env _ key.2.1 key.2.2 henv⟩
    · have hn : SizeClass.is_large n = false := by
        cases h2 : SizeClass.is_large n
        · rfl
        · exact absurd h2 hl
      have hws : Wstep w (AOp.alloc n) = { arena := (ArenaState.allocate w.arena w.env n).2.1, env := (ArenaState.allocate w.arena w.env n).2.2, outS := match (ArenaState.allocate w.arena w.env n).1 with | some p => Function.update w.outS (SizeClass.index n) (insert p (w.outS (SizeClass.index n))) | none => w.outS } := by
        rw [Wstep, if_neg hl]
      rw [hws]
      exact (allocate_step w.arena w.env w.outS n ⟨hbins, henv⟩ hn).1
  | dealloc p n =>
    by_cases hl : SizeClass.is_large n = true
    · have hws : Wstep w (AOp.dealloc p n) = { w with arena := (ArenaState.deallocate w.arena w.env p n).1, env := (ArenaState.deallocate w.arena w.env p n).2 } := by
        rw [Wstep, if_pos hl]
      have key : (ArenaState.deallocate w.arena w.env p n).1 = w.arena ∧
          (ArenaState.deallocate w.arena w.env p n).2.stack = w.env.stack ∧
          (ArenaState.deallocate w.arena w.env p n).2.osSupply = w.env.osSupply := by
        by_cases hp0 : p = 0
        · rw [ArenaState.deallocate, if_pos hp0]
          exact ⟨rfl, rfl, rfl⟩
        · rw [ArenaState.deallocate, if_neg hp0, if_pos hl]
          exact ⟨rfl, rfl, rfl⟩
      rw [hws]
      show ArenaInv (ArenaState.deallocate w.arena w.env p n).1
        (ArenaState.deallocate w.arena w.env p n).2 w.outS
      rw [key.1]
      exact ⟨hbins, EnvOK_same_sources w.arena w.env _ key.2.1 key.2.2 henv⟩
    · have hn : SizeClass.is_large n = false := by
        cases h2 : SizeClass.is_large n
        · rfl
        · exact absurd h2 hl
      have hws : Wstep w (AOp.dealloc p n) = { arena := (ArenaState.deallocate w.arena w.env p n).1, env := (ArenaState.deallocate w.arena w.env p n).2, outS := Function.update w.outS (SizeClass.index n) ((w.outS (SizeClass.index n)).erase p) } := by
        rw [Wstep, if_neg hl]
      rw [hws]
      rcases hv with hlv | hp0 | hpm
      · exact absurd hlv hl
      · subst hp0
        have hd : ArenaState.deallocate w.arena w.env 0 n = (w.arena, w.env) := by
          rw [ArenaState.deallocate, if_pos rfl]
        have hc : SizeClass.index n < 24 := index_lt_24 n hn
        have h0 : (0 : Nat) ∉ w.outS (SizeClass.index n) :=
          outS_zero_not_mem w.arena w.env w.outS ⟨hbins, henv⟩ _ hc
        have herase : (w.outS (SizeClass.index n)).erase 0 = w.outS (SizeClass.index n) :=
          Finset.erase_eq_of_not_mem h0
        show ArenaInv (ArenaState.deallocate w.arena w.env 0 n).1
          (ArenaState.deallocate w.arena w.env 0 n).2
          (Function.update w.outS (SizeClass.index n) ((w.outS (SizeClass.index n)).erase 0))
        rw [hd, herase, Function.update_eq_self]
        exact ⟨hbins, henv⟩
      · exact deallocate_step w.arena w.env w.outS p n ⟨hbins, henv⟩ hn hpm

theorem WInv_run : ∀ (ops : List AOp) (w : World), WInv w → Wvalid w ops →
    WInv (Wrun w ops) := by
  intro ops
  induction ops with
  | nil => intro w hw _; exact hw
  | cons op rest ih =>
    intro w hw hv
    exact ih (Wstep w op) (WInv_step w op hw hv.1) hv.2

/-- A fresh arena with no outstanding pointers satisfies the invariant over
any well-formed chunk environment. -/
theorem ArenaInv_empty (e : Env) (henv : EnvOK emptyArena e) :
    ArenaInv emptyArena e (fun _ => ∅) := by
  refine ⟨?_, henv⟩
  intro c hc
  refine ⟨?_, ?_, ?_, ?_, ?_⟩
  · intro s hs
    simp [emptyArena, emptyBin, binSlabs] at hs
  · intro s hs
    simp [emptyArena, emptyBin] at hs
  · intro s hs
    simp [emptyArena, emptyBin] at hs
  · simp [binBases, binSlabs, emptyArena, emptyBin]
  · intro q hq
    simp at hq

/-- A one-chunk environment for concrete executions. -/
def env1 : Env :=
  { stack := { headPtr := 0, tag := 0, smem := fun _ => 0 },
    osSupply := [2 ^ 21], osLarge := [], unmapped := [] }

theorem env1_ok : EnvOK emptyArena env1 := by
  refine ⟨[], rfl, by simp [env1], ?_⟩
  intro ch hm
  simp only [List.nil_append, List.mem_singleton, env1] at hm
  subst hm
  refine ⟨⟨by norm_num, by norm_num [kChunkSize], by norm_num [kChunkSize]⟩, ?_⟩
  intro c hc
  simp [emptyArena, emptyBin, binBases, binSlabs]

theorem Wvalid_allocs_only : ∀ (ops : List AOp) (w : World),
    (∀ op ∈ ops, ∃ n, op = AOp.alloc n) → Wvalid w ops := by
  intro ops
  induction ops with
  | nil => intro w h; trivial
  | cons op rest ih =>
    intro w h
    obtain ⟨n, hn⟩ := h op (by simp)
    subst hn
    exact ⟨trivial, ih _ (fun op2 h2 => h op2 (by simp [h2]))⟩

/-- **C2 (amended).** Along every valid trace of allocate/deallocate calls
from a fresh arena, each bin keeps: every partial-list slab with a nonempty
free list and at least one free block; every full-list slab with an empty
free list and zero free blocks; and pairwise distinct chunk bases across the
active, partial and full slabs. (Clause 1 of the original claim is amended:
the active slab may be left with zero free blocks by a successful fast-path
allocation, since a drained slab is only moved to the full list by the next
slow-path call.) -/
theorem C2_bin_lists (e0 : Env) (ops : List AOp)
    (henv : EnvOK emptyArena e0)
    (hv : Wvalid { arena := emptyArena, env := e0, outS := fun _ => ∅ } ops)
    (c : Nat) (hc : c < 24) :
    (∀ s ∈ ((Wrun { arena := emptyArena, env := e0, outS := fun _ => ∅ } ops).arena.bins c).partSlabs,
       s.free_head ≠ 0 ∧ 1 ≤ Slab.free_blocks (bsOf c) s) ∧
    (∀ s ∈ ((Wrun { arena := emptyArena, env := e0, outS := fun _ => ∅ } ops).arena.bins c).fullSlabs,
       s.free_head = 0 ∧ Slab.free_blocks (bsOf c) s = 0) ∧
    (binBases ((Wrun { arena := emptyArena, env := e0, outS := fun _ => ∅ } ops).arena.bins c)).Nodup := by
  have hw0 : WInv { arena := emptyArena, env := e0, outS := fun _ => ∅ } :=
    ArenaInv_empty e0 henv
  obtain ⟨hbinsW, henvW⟩ := WInv_run ops _ hw0 hv
  obtain ⟨hall, hpart, hfull, hnd, hcov⟩ := hbinsW c hc
  have hbs0 : 0 < bsOf c := by
    have := bsOf_bounds c hc
    omega
  refine ⟨?_, ?_, hnd⟩
  · intro s hs
    have hok := hall s (mem_binSlabs_part hs)
    exact ⟨hpart s hs, (SlabOK_free_blocks _ _ _ hbs0 hok).1 (hpart s hs)⟩
  · intro s hs
    have hok := hall s (mem_binSlabs_full hs)
    exact ⟨hfull s hs, (SlabOK_free_blocks _ _ _ hbs0 hok).2 (hfull s hs)⟩

/-- Witness for the amended C2 on a one-allocation trace. -/
theorem C2_bin_lists_witness :
    EnvOK emptyArena env1 ∧
    (∀ s ∈ ((Wrun { arena := emptyArena, env := env1, outS := fun _ => ∅ } [AOp.alloc 65536]).arena.bins 23).partSlabs,
       s.free_head ≠ 0 ∧ 1 ≤ Slab.free_blocks (bsOf 23) s) ∧
    (∀ s ∈ ((Wrun { arena := emptyArena, env := env1, outS := fun _ => ∅ } [AOp.alloc 65536]).arena.bins 23).fullSlabs,
       s.free_head = 0 ∧ Slab.free_blocks (bsOf 23) s = 0) ∧
    (binBases ((Wrun { arena := emptyArena, env := env1, outS := fun _ => ∅ } [AOp.alloc 65536]).arena.bins 23)).Nodup :=
  ⟨env1_ok,
   C2_bin_lists env1 [AOp.alloc 65536] env1_ok ⟨trivial, trivial⟩ 23 (by norm_num)⟩

def cexW0 : World := { arena := emptyArena, env := env1, outS := fun _ => ∅ }

def cexOps : List AOp := List.replicate 31 (AOp.alloc 65536)

set_option maxRecDepth 1000000 in
/-- **C2 (counterexample to the original clause 1).** On a fresh arena with
one 2 MiB chunk, 31 allocations of 65536 bytes leave the active slab of bin
23 holding exactly its last free block; the 32nd allocation is a successful
fast-path pop of that block, yet afterwards the bin still has an active slab
and it has zero free blocks — contradicting "the active slab, when present,
has at least one free block after the fast-path allocation completes
successfully". -/
theorem C2_active_slab_drained :
    Wvalid cexW0 (cexOps ++ [AOp.alloc 65536]) ∧
    Option.map SlabState.free_head ((Wrun cexW0 cexOps).arena.bins 23).current =
      some (2 ^ 21 + 31 * 65536) ∧
    (ArenaState.allocate (Wrun cexW0 cexOps).arena (Wrun cexW0 cexOps).env 65536).1 =
      some (2 ^ 21 + 31 * 65536) ∧
    Option.map SlabState.free_head
      (((Wstep (Wrun cexW0 cexOps) (AOp.alloc 65536)).arena.bins 23).current) = some 0 ∧
    Option.map (Slab.free_blocks (bsOf 23))
      (((Wstep (Wrun cexW0 cexOps) (AOp.alloc 65536)).arena.bins 23).current) = some 0 := by
  refine ⟨?_, rfl, rfl, rfl, rfl⟩
  refine Wvalid_allocs_only _ _ ?_
  intro op hop
  refine ⟨65536, ?_⟩
  rcases List.mem_append.mp hop with h | h
  · exact List.eq_of_mem_replicate h
  · simpa using h

/-- **C5.** Under the arena invariant, a successful slab-regime allocation,
deallocation of the returned pointer, then another allocation of the same
size returns the same address: the slab free list is LIFO and the drained
pointer is pushed back as the new head. -/
theorem C5_alloc_free_alloc (a : ArenaState) (e : Env) (outS : Nat → Finset Nat)
    (n p : Nat) (hinv : ArenaInv a e outS) (hn : SizeClass.is_large n = false)
    (hsome : (ArenaState.allocate a e n).1 = some p) :
    (ArenaState.allocate
      (ArenaState.deallocate (ArenaState.allocate a e n).2.1 (ArenaState.allocate a e n).2.2 p n).1
      (ArenaState.deallocate (ArenaState.allocate a e n).2.1 (ArenaState.allocate a e n).2.2 p n).2
      n).1 = some p := by
  obtain ⟨hinv1, hpost⟩ := allocate_step a e outS n hinv hn
  obtain ⟨s, hcur, hck, hinr⟩ := hpost p hsome
  obtain ⟨hinr1, hinr2⟩ := hinr
  have hp0 : p ≠ 0 := by
    have := hck.1
    omega
  have hsb : slab_base_from_ptr p = s.base :=
    slab_base_from_ptr_eq s.base p hck.2.1 hinr1 hinr2 (by have := hck.2.2; omega)
  have hd := deallocate_fast_eq (ArenaState.allocate a e n).2.1
    (ArenaState.allocate a e n).2.2 p n s hp0 hn hcur hsb.symm
  rw [hd]
  dsimp only
  have hcont : Slab.contains s p = true := by
    rw [Slab.contains]
    simp [hinr1, hinr2]
  have hdfh : (Slab.deallocate (bsOf (SizeClass.index n)) s p).free_head = p := by
    rw [Slab.deallocate, if_neg (by simp [hp0, hcont])]
  have hcur2 : (({ (ArenaState.allocate a e n).2.1 with bins := Function.update ((ArenaState.allocate a e n).2.1).bins (SizeClass.index n) (binDC (((ArenaState.allocate a e n).2.1).bins (SizeClass.index n)) (Slab.deallocate (bsOf (SizeClass.index n)) s p)) } : ArenaState).bins (SizeClass.index n)).current = some (Slab.deallocate (bsOf (SizeClass.index n)) s p) := by
    simp [Function.update_same, binDC]
  have hres := allocate_fast_result _ (ArenaState.allocate a e n).2.2 n _ hn hcur2
    (by rw [hdfh]; exact hp0)
  rw [hres, hdfh]

/-- Witness for C5: allocate–free–allocate of 65536 bytes on a fresh arena
returns the chunk base twice. -/
theorem C5_alloc_free_alloc_witness :
    (ArenaState.allocate emptyArena env1 65536).1 = some (2 ^ 21) ∧
    (ArenaState.allocate
      (ArenaState.deallocate (ArenaState.allocate emptyArena env1 65536).2.1 (ArenaState.allocate emptyArena env1 65536).2.2 (2 ^ 21) 65536).1
      (ArenaState.deallocate (ArenaState.allocate emptyArena env1 65536).2.1 (ArenaState.allocate emptyArena env1 65536).2.2 (2 ^ 21) 65536).2
      65536).1 = some (2 ^ 21) :=
  ⟨rfl,
   C5_alloc_free_alloc emptyArena env1 (fun _ => ∅) 65536 (2 ^ 21)
     (ArenaInv_empty env1 env1_ok) rfl rfl⟩

end NexusAlloc
